import Mathlib

/-!
Verification development for the scrapegoat core: a shallow embedding of the
Goatspeak interpreter's grouping state machine, the HTML node tree with its
condition engine and query executor, the extraction engine (dictionary and
table projection), the streaming tree builder, and the result
de-duplication step, each translated from
`src/scrapegoat-core/src/scrapegoat_core/classes/`.
-/

namespace Scrapegoat

/-! ## Commands, Queries and Blocks (interpreter.py, block.py, command.py)

A parsed Goatspeak statement becomes a `Command` object whose `action`
string is one of `"visit"`, `"select"`, `"scrape"`, `"extract"`,
`"output"` (set by `FetchCommand`, `GrazeCommand`, `ChurnCommand`,
`DeliverCommand`).  For the grouping state machine only the action tag and
the identity of each command matter, so a command is embedded as its
action together with a serial number `uid` distinguishing occurrences. -/

inductive CAction where
  | visit
  | select
  | scrape
  | extract
  | output
deriving DecidableEq, Repr

structure Cmd where
  action : CAction
  uid : Nat
deriving DecidableEq, Repr

/-- `Query.__init__` (block.py): a fetch command (optional), the ordered
graze commands, an optional churn (extract) command and an optional
deliver (output) command. -/
structure Query where
  fetch_command : Option Cmd
  graze_commands : List Cmd
  churn_command : Option Cmd
  deliver_command : Option Cmd
deriving DecidableEq, Repr

/-- `GoatspeakBlock.__init__` (block.py): the Python constructor stores
whatever `fetch_command` it is given; `Interpreter.interpret` passes `None`
for the block synthesized when no block exists at end of input, so the
field is an `Option`. -/
structure GoatspeakBlock where
  fetch_command : Option Cmd
  query_list : List Query
deriving DecidableEq, Repr

/-- The partition of an accumulated command list into a `Query`, as in both
`Interpreter._manage_interpreter_state` and the tail of
`Interpreter.interpret`: first `visit`, all `scrape`/`select` in order,
first `extract`, first `output`. -/
def mkQuery (cs : List Cmd) : Query :=
  { fetch_command := cs.find? (fun c => c.action == CAction.visit)
  , graze_commands := cs.filter (fun c => c.action == CAction.scrape || c.action == CAction.select)
  , churn_command := cs.find? (fun c => c.action == CAction.extract)
  , deliver_command := cs.find? (fun c => c.action == CAction.output) }

/-- `instructions[-2].action in ("scrape", "extract", "output")`. -/
def isTerminator (c : Cmd) : Bool :=
  c.action == CAction.scrape || c.action == CAction.extract || c.action == CAction.output

/-- `instructions[-1].action in ("scrape", "select", "visit")`. -/
def isStarter (c : Cmd) : Bool :=
  c.action == CAction.scrape || c.action == CAction.select || c.action == CAction.visit

/-- The guard of the flush branch of `_manage_interpreter_state`:
`len(instructions) >= 2` and the second-to-last accumulated command is a
query terminator and the last is a query-or-block starter. -/
def flushTriggered (instructions : List Cmd) : Bool :=
  match instructions.dropLast.getLast?, instructions.getLast? with
  | some a, some b => isTerminator a && isStarter b
  | _, _ => false

/-- `last_block = goatspeak_blocks[-1]; last_block.query_list.append(query)`:
appending a query to the last block mutates it in place; on an empty block
list `goatspeak_blocks[-1]` raises `IndexError`, modelled as `none`. -/
def appendQueryToLast (bs : List GoatspeakBlock) (q : Query) : Option (List GoatspeakBlock) :=
  match bs.getLast? with
  | none => none
  | some b => some (bs.dropLast ++ [{ b with query_list := b.query_list ++ [q] }])

/-- `Interpreter._manage_interpreter_state` (interpreter.py lines 506-535):
first the flush branch (guarded by `flushTriggered`), which turns
`instructions[:-1]` into a `Query` appended to the last block and resets
the accumulator to the last instruction alone; then, if the last
accumulated instruction is a `visit`, a new block is opened with it and the
accumulator is reset to that fetch command.  `none` models the `IndexError`
raised by `goatspeak_blocks[-1]` when no block exists at flush time. -/
def manageState (instructions : List Cmd) (blocks : List GoatspeakBlock) :
    Option (List Cmd × List GoatspeakBlock) :=
  let flushed : Option (List Cmd × List GoatspeakBlock) :=
    if flushTriggered instructions then
      match instructions.getLast? with
      | none => none
      | some nxt =>
        match appendQueryToLast blocks (mkQuery instructions.dropLast) with
        | none => none
        | some bs2 => some ([nxt], bs2)
    else some (instructions, blocks)
  match flushed with
  | none => none
  | some (instr2, bs2) =>
    match instr2.getLast? with
    | some c =>
      if c.action == CAction.visit then
        some ([c], bs2 ++ [{ fetch_command := some c, query_list := [] }])
      else some (instr2, bs2)
    | none => some (instr2, bs2)

/-- The main loop of `Interpreter.interpret`: each parsed instruction is
appended to the accumulator and `_manage_interpreter_state` is applied. -/
def interpretLoop : List Cmd → List Cmd → List GoatspeakBlock →
    Option (List Cmd × List GoatspeakBlock)
  | [], instructions, blocks => some (instructions, blocks)
  | c :: rest, instructions, blocks =>
    match manageState (instructions ++ [c]) blocks with
    | none => none
    | some (i2, b2) => interpretLoop rest i2 b2

/-- The tail of `Interpreter.interpret` (lines 569-587): any remaining
accumulated instructions are partitioned into a final `Query`; if no block
exists a block is synthesized around it (its `fetch_command` being the
first `visit` among the remaining instructions, possibly `None`), otherwise
the query is appended to the last block. -/
def interpretFinal (instructions : List Cmd) (blocks : List GoatspeakBlock) :
    Option (List GoatspeakBlock) :=
  if instructions.isEmpty then some blocks
  else
    let fetch := instructions.find? (fun c => c.action == CAction.visit)
    let q := mkQuery instructions
    if blocks.isEmpty then some [{ fetch_command := fetch, query_list := [q] }]
    else appendQueryToLast blocks q

/-- `Interpreter.interpret` on an already-parsed statement list (the
statement parsers turn each `;`-terminated statement into exactly one
command, so a script is embedded as its command list).  `none` models an
uncaught exception. -/
def interpret (cmds : List Cmd) : Option (List GoatspeakBlock) :=
  match interpretLoop cmds [] [] with
  | none => none
  | some (instructions, blocks) => interpretFinal instructions blocks

/-- The number of VISIT statements of a script. -/
def countVisits (cmds : List Cmd) : Nat :=
  (cmds.filter (fun c => c.action == CAction.visit)).length

/-- The script's first statement is a VISIT. -/
def firstIsVisit (cmds : List Cmd) : Bool :=
  match cmds.head? with
  | some c => c.action == CAction.visit
  | none => false

/-! ## The HTMLNode tree (node.py)

An `HTMLNode` carries a globally unique id (a `uuid4` string in the
source, embedded as a `Nat`; the invariant "node ids are unique within one
parse" makes id equality the faithful model of Python object identity),
its tag, raw source text, HTML attributes (stored with their `"@"` prefix,
as `HTMLNode.__init__` prepends it), body text, retrieval instruction,
the id of its parent (the source holds a parent reference; only
`parent.id` is ever read by the operations embedded here), extraction
directives, and its ordered children. -/

structure EFlags where
  ignore_children : Bool
  ignore_grandchildren : Bool
  table : Bool
deriving DecidableEq, Repr

structure NodeData where
  nid : Nat
  raw : String
  tag_type : String
  has_data : Bool
  html_attributes : List (String × String)
  body : String
  retrieval_instructions : String
  parentId : Option Nat
  extract_fields : Option (List String)
  extract_flags : EFlags
deriving DecidableEq, Repr

inductive HNode where
  | mk (data : NodeData) (children : List HNode)

def HNode.data : HNode → NodeData
  | .mk d _ => d

def HNode.children : HNode → List HNode
  | .mk _ cs => cs

mutual

def hnodeDecEq : (a b : HNode) → Decidable (a = b)
  | .mk d1 cs1, .mk d2 cs2 =>
    if hd : d1 = d2 then
      match hnodeListDecEq cs1 cs2 with
      | isTrue hc => isTrue (by rw [hd, hc])
      | isFalse hc => isFalse (fun he => hc (by injection he))
    else isFalse (fun he => hd (by injection he))

def hnodeListDecEq : (a b : List HNode) → Decidable (a = b)
  | [], [] => isTrue rfl
  | [], _ :: _ => isFalse (by simp)
  | _ :: _, [] => isFalse (by simp)
  | x :: xs, y :: ys =>
    match hnodeDecEq x y, hnodeListDecEq xs ys with
    | isTrue h1, isTrue h2 => isTrue (by rw [h1, h2])
    | isFalse h1, _ => isFalse (fun he => h1 (by injection he))
    | _, isFalse h2 => isFalse (fun he => h2 (by injection he))

end

instance : DecidableEq HNode := hnodeDecEq

mutual

/-- `HTMLNode.preorder_traversal`: the node itself, then each child's
preorder traversal in order. -/
def preorder : HNode → List HNode
  | .mk d cs => HNode.mk d cs :: preorderList cs

/-- Preorder traversal of a forest, in document order. -/
def preorderList : List HNode → List HNode
  | [] => []
  | n :: ns => preorder n ++ preorderList ns

end

/-- The tag filter of `HTMLNode.get_descendants` (`tag_type=None` accepts
every node; the keyword-attribute filters are never used by the operations
embedded here). -/
def tagOk (tf : Option String) (c : HNode) : Bool :=
  match tf with
  | none => true
  | some t => c.data.tag_type == t

mutual

/-- `HTMLNode.get_descendants`: every strict descendant passing the tag
filter, in document order (for each child: the child if it matches, then
its own matching descendants). -/
def getDescendants (tf : Option String) : HNode → List HNode
  | .mk _ cs => getDescendantsList tf cs

def getDescendantsList (tf : Option String) : List HNode → List HNode
  | [] => []
  | c :: cs =>
    (if tagOk tf c then [c] else []) ++ getDescendants tf c ++ getDescendantsList tf cs

end

/-- Python whitespace for `str.strip()` / `str.lower()` modelling. -/
def pyIsWS (c : Char) : Bool :=
  c == ' ' || c == '\t' || c == '\n' || c == '\r' || c == '\x0b' || c == '\x0c'

def dropLeadingWS : List Char → List Char
  | [] => []
  | c :: cs => if pyIsWS c then dropLeadingWS cs else c :: cs

/-- `str.strip()`: remove leading and trailing whitespace.  (The library
`String.trim` is extensionally the same on the inputs used here; this
structural version is preferred so that concrete executions reduce.) -/
def pyStrip (s : String) : String :=
  String.mk ((dropLeadingWS (dropLeadingWS s.data).reverse).reverse)

def pyCharLower (c : Char) : Char :=
  if 'A' ≤ c && c ≤ 'Z' then Char.ofNat (c.toNat + 32) else c

/-- `str.lower()` on ASCII text. -/
def pyLower (s : String) : String :=
  String.mk (s.data.map pyCharLower)

/-- `key[0] == "@"` (the caller has already ruled out the empty key). -/
def firstCharIsAt (s : String) : Bool :=
  match s.data with
  | [] => false
  | c :: _ => c == '@'

/-- Substring scan: `needle` occurs contiguously inside `hay`.  Models the
Python `in` operator on strings. -/
def charsHaveSub (needle : List Char) : List Char → Bool
  | [] => needle.isEmpty
  | c :: rest => needle.isPrefixOf (c :: rest) || charsHaveSub needle rest

def strHasSub (hay needle : String) : Bool :=
  charsHaveSub needle.data hay.data

/-! ## The condition engine (conditions.py)

`Condition.matches` can raise `ScrapegoatMissingFieldException` (and an
`IndexError` on an empty key); a raised exception is modelled as `none`.
The `uuid4` node id is rendered as the decimal numeral of `nid` wherever
the source calls `str(self.id)`. -/

inductive Condition where
  | ifCond (key : String) (value : Option String) (negated : Bool)
      (query_tag : Option String) (like : Bool)
  | inCond (target : String) (value : Option Nat) (negated : Bool)
      (query_tag : Option String)
deriving DecidableEq, Repr

def Condition.negated : Condition → Bool
  | .ifCond _ _ n _ _ => n
  | .inCond _ _ n _ => n

def attrLookup (attrs : List (String × String)) (key : String) : Option String :=
  (attrs.find? (fun p => p.1 == key)).map (fun p => p.2)

/-- `HTMLNode.like_html_attribute`: with no value, key presence; else
case-insensitive substring containment of the value. -/
def likeHtmlAttribute (n : HNode) (key : String) (value : Option String) : Bool :=
  match value with
  | none => (attrLookup n.data.html_attributes key).isSome
  | some v =>
    match attrLookup n.data.html_attributes key with
    | none => false
    | some stored => strHasSub (pyLower stored) (pyLower v)

/-- `HTMLNode.has_html_attribute`: with no value, key presence; else exact
equality with the stored value. -/
def hasHtmlAttribute (n : HNode) (key : String) (value : Option String) : Bool :=
  match value with
  | none => (attrLookup n.data.html_attributes key).isSome
  | some v =>
    match attrLookup n.data.html_attributes key with
    | none => false
    | some stored => v == stored

/-- `HTMLNode.like_attribute`: fuzzy (substring, lower-cased) matching of a
semantic node attribute, one case per supported key, `False` otherwise.
Comparisons the source performs between values of different Python types
(`has_data` against a string, `extract_fields`/`extract_flags` against a
string — the source even compares `extract_flags` in the `extract_fields`
case) are constantly false for the string-valued conditions the parser
produces, and are embedded as `false`. -/
def likeAttribute (n : HNode) (key : String) (value : Option String) : Bool :=
  if key == "tag_type" then
    match value with
    | none => true
    | some v => strHasSub (pyLower n.data.tag_type) (pyLower v)
  else if key == "id" then
    match value with
    | none => true
    | some v => strHasSub (pyLower (toString n.data.nid)) (pyLower v)
  else if key == "has_data" then
    match value with
    | none => n.data.has_data
    | some v => pyLower v == (if n.data.has_data then "true" else "false")
  else if key == "body" then
    match value with
    | none => true
    | some v => strHasSub (pyLower n.data.body) (pyLower v)
  else if key == "retrieval_instructions" then
    match value with
    | none => true
    | some v => strHasSub (pyLower n.data.retrieval_instructions) (pyLower v)
  else if key == "extract_fields" then
    match value with
    | none => n.data.extract_fields.isSome
    | some _ => false
  else if key == "extract_flags" then
    match value with
    | none => true
    | some _ => false
  else if key == "parent" then
    match value with
    | none => n.data.parentId.isSome
    | some v =>
      match n.data.parentId with
      | none => false
      | some p => strHasSub (pyLower (toString p)) (pyLower v)
  else if key == "children" then
    match value with
    | none => !n.children.isEmpty
    | some v => n.children.any (fun c => strHasSub (pyLower (toString c.data.nid)) (pyLower v))
  else if key == "raw" then
    match value with
    | none => true
    | some v => strHasSub (pyLower n.data.raw) (pyLower v)
  else false

/-- `HTMLNode.has_attribute`: exact matching of a semantic node attribute,
one case per supported key, `False` otherwise.  As in `likeAttribute`,
cross-type comparisons of the source are constantly false. -/
def hasAttribute (n : HNode) (key : String) (value : Option String) : Bool :=
  if key == "tag_type" then
    match value with
    | none => true
    | some v => n.data.tag_type == v
  else if key == "id" then
    match value with
    | none => true
    | some v => toString n.data.nid == v
  else if key == "has_data" then
    match value with
    | none => n.data.has_data
    | some _ => false
  else if key == "body" then
    match value with
    | none => true
    | some v => n.data.body == v
  else if key == "retrieval_instructions" then
    match value with
    | none => true
    | some v => n.data.retrieval_instructions == v
  else if key == "extract_fields" then
    match value with
    | none => n.data.extract_fields.isSome
    | some _ => false
  else if key == "extract_flags" then
    match value with
    | none => true
    | some _ => false
  else if key == "parent" then
    match value with
    | none => n.data.parentId.isSome
    | some v =>
      match n.data.parentId with
      | none => false
      | some p => toString p == v
  else if key == "children" then
    match value with
    | none => !n.children.isEmpty
    | some v => n.children.any (fun c => toString c.data.nid == v)
  else if key == "raw" then
    match value with
    | none => true
    | some v => n.data.raw == v
  else false

/-- `IfCondition.matches`: raises when `query_tag is None` (modelled as
`none`), dispatches on `key[0] == "@"` (an empty key raises `IndexError`),
and conjoins the attribute match with `node.tag_type == query_tag`. -/
def ifMatches (key : String) (value : Option String) (query_tag : Option String)
    (like : Bool) (node : HNode) : Option Bool :=
  match query_tag with
  | none => none
  | some q =>
    if key == "" then none
    else if like then
      if firstCharIsAt key then
        some (likeHtmlAttribute node key value && node.data.tag_type == q)
      else
        some (likeAttribute node key value && node.data.tag_type == q)
    else
      if firstCharIsAt key then
        some (hasHtmlAttribute node key value && node.data.tag_type == q)
      else
        some (hasAttribute node key value && node.data.tag_type == q)

/-- The scan of `InCondition.matches` for `POSITION`: walk the preorder
traversal, counting (1-indexed) only nodes whose tag equals the owning
tag; on reaching the tested node (object identity, i.e. id equality)
return whether the count equals the stored value; `False` if the walk
ends without reaching it. -/
def posScan (qt : String) (nodeId : Nat) (value : Option Nat) :
    List HNode → Nat → Bool
  | [], _ => false
  | n :: rest, position =>
    if n.data.tag_type == qt then
      if n.data.nid == nodeId then value == some position
      else posScan qt nodeId value rest (position + 1)
    else posScan qt nodeId value rest position

mutual

/-- Tags along the path from `r` (inclusive) down to the node with id
`nid` (exclusive); `none` when the node is not in the tree.  The source's
`HTMLNode.get_ancestors` walks parent references upward; for a node of the
tree rooted at the document root the two walks visit the same nodes. -/
def pathTags (nid : Nat) : HNode → Option (List String)
  | .mk d cs =>
    if d.nid == nid then some []
    else
      match pathTagsList nid cs with
      | none => none
      | some tags => some (d.tag_type :: tags)

def pathTagsList (nid : Nat) : List HNode → Option (List String)
  | [] => none
  | c :: cs =>
    match pathTags nid c with
    | some tags => some tags
    | none => pathTagsList nid cs

end

/-- `HTMLNode.is_descendant_of` evaluated for a node of the tree rooted at
`r`: some ancestor has the target tag.  (The source walks the node's
parent chain, which for a document node is exactly its path from the
root; a parent chain extending above the supplied root is not
representable in a value tree, hence the explicit root parameter.) -/
def isDescendantOfIn (r : HNode) (nid : Nat) (target : String) : Bool :=
  match pathTags nid r with
  | none => false
  | some tags => tags.any (fun t => t == target)

/-- `InCondition.matches`: for `POSITION`, raises when the root is absent
or the owning tag is falsy (`None` or `""`), else runs the preorder scan;
otherwise the ancestry test against the target tag. -/
def inMatches (target : String) (value : Option Nat) (query_tag : Option String)
    (node : HNode) (root : Option HNode) : Option Bool :=
  if target == "POSITION" then
    match root with
    | none => none
    | some r =>
      match query_tag with
      | none => none
      | some qt =>
        if qt == "" then none
        else some (posScan qt node.data.nid value (preorder r) 1)
  else
    match root with
    | none => none
    | some r => some (isDescendantOfIn r node.data.nid target)

/-- `Condition.matches`, dispatching to the subclass implementations. -/
def Condition.matches (c : Condition) (node : HNode) (root : Option HNode) : Option Bool :=
  match c with
  | .ifCond key value _ query_tag like => ifMatches key value query_tag like node
  | .inCond target value _ query_tag => inMatches target value query_tag node root

/-- `Condition.evaluate`: the subclass match with negation applied
uniformly afterwards. -/
def Condition.evaluate (c : Condition) (node : HNode) (root : Option HNode) : Option Bool :=
  (c.matches node root).map (fun r => if c.negated then !r else r)

/-! ## The query executor (command.py `GrazeCommand`, goat.py `Goat`) -/

/-- `GrazeCommand`: action string ("select" or "scrape"), count (0 = no
limit), target tag, attached conditions. -/
structure GrazeCmd where
  action : String
  count : Nat
  element : String
  conditions : List Condition
deriving DecidableEq, Repr

/-- `all(cond.evaluate(node, root) for cond in self.conditions)`: Python's
`all` stops at the first falsy result, so a later raising condition is
not evaluated. -/
def allConds : List Condition → HNode → HNode → Option Bool
  | [], _, _ => some true
  | c :: cs, node, root =>
    match c.evaluate node (some root) with
    | none => none
    | some false => some false
    | some true => allConds cs node root

/-- `GrazeCommand._evaluate`: tag mismatch short-circuits to `False`
before any condition is evaluated. -/
def grazeEval (cmd : GrazeCmd) (node root : HNode) : Option Bool :=
  if node.data.tag_type != cmd.element then some false
  else allConds cmd.conditions node root

/-- The loop of `GrazeCommand.execute`: walk the preorder traversal,
collect nodes `_evaluate` accepts, and break once `count > 0` matches are
collected. -/
def executeGo (cmd : GrazeCmd) (root : HNode) : List HNode → List HNode → Option (List HNode)
  | [], acc => some acc
  | n :: rest, acc =>
    match grazeEval cmd n root with
    | none => none
    | some true =>
      let acc2 := acc ++ [n]
      if cmd.count > 0 && decide (cmd.count ≤ acc2.length) then some acc2
      else executeGo cmd root rest acc2
    | some false => executeGo cmd root rest acc

/-- `GrazeCommand.execute` (command.py lines 79-95). -/
def GrazeCmd.execute (cmd : GrazeCmd) (root : HNode) : Option (List HNode) :=
  executeGo cmd root (preorder root) []

/-- `graze_command.action.lower() == "select"`. -/
def isSelect (c : GrazeCmd) : Bool :=
  pyLower c.action == "select"

mutual

/-- `Goat.feast` (goat.py lines 11-44): scrape commands contribute their
matches directly; the first select command rebases — its candidates each
become the root for a recursive run of the remaining commands, and the
concatenated recursive results are returned immediately. -/
def feast (root : HNode) : List GrazeCmd → Option (List HNode)
  | [] => some []
  | c :: rest =>
    if isSelect c then
      match c.execute root with
      | none => none
      | some cands => feastList cands rest
    else
      match c.execute root with
      | none => none
      | some rs =>
        match feast root rest with
        | none => none
        | some more => some (rs ++ more)
termination_by cmds => (cmds.length, 0)

/-- `for new_root in rebased_roots: results.extend(self.feast(new_root,
graze_command_subset))`. -/
def feastList (cands : List HNode) (cmds : List GrazeCmd) : Option (List HNode) :=
  match cands with
  | [] => some []
  | x :: xs =>
    match feast x cmds with
    | none => none
    | some rs =>
      match feastList xs cmds with
      | none => none
      | some more => some (rs ++ more)
termination_by (cmds.length, cands.length + 1)

end

/-! ## The extraction engine (node.py `to_dict`, `_handle_table_extract`)

`to_dict` returns a Python dict (or, for a table, a list of row dicts);
its values are embedded in a small JSON-like type.  The `uuid4` ids are
rendered as decimal numerals.  `_handle_table_extract` mutates cell bodies
in place (`cell.body += " " + child.body`); within one projection call
this is embedded by threading a map of overridden bodies, keyed by node
id. -/

inductive J where
  | jnull
  | jb (b : Bool)
  | js (s : String)
  | jarr (l : List J)
  | jobj (l : List (String × J))

/-- A Python dict with string keys and string values: assignment to an
existing key replaces its value in place, a new key is appended. -/
abbrev Row := List (String × String)

def upsertRow (r : Row) (k v : String) : Row :=
  if (r.find? (fun p => p.1 == k)).isSome then
    r.map (fun p => if p.1 == k then (k, v) else p)
  else r ++ [(k, v)]

/-- Bodies overridden by in-place mutation during one table projection,
keyed by node id. -/
abbrev BodyMap := List (Nat × String)

def bodyOf (m : BodyMap) (n : HNode) : String :=
  match m.find? (fun p => p.1 == n.data.nid) with
  | some p => p.2
  | none => n.data.body

def setBody (m : BodyMap) (nid : Nat) (s : String) : BodyMap :=
  if (m.find? (fun p => p.1 == nid)).isSome then
    m.map (fun p => if p.1 == nid then (nid, s) else p)
  else m ++ [(nid, s)]

/-- `for child in cell.get_descendants(): cell.body += " " + child.body`:
the cell's (current) body is extended by each descendant's (current)
body. -/
def hoistCell (m : BodyMap) (cell : HNode) : BodyMap :=
  (getDescendants none cell).foldl
    (fun acc child => setBody acc cell.data.nid (bodyOf acc cell ++ " " ++ bodyOf acc child)) m

/-- The header loop of `_handle_table_extract`: hoist each header cell's
descendant text, then record its stripped body. -/
def extractHeaders : BodyMap → List HNode → BodyMap × List String
  | m, [] => (m, [])
  | m, c :: cs =>
    let m2 := hoistCell m c
    let h := pyStrip (bodyOf m2 c)
    let st := extractHeaders m2 cs
    (st.1, h :: st.2)

/-- The inner loop over `enumerate(headers)`: a column with a cell gets
that cell's hoisted stripped body, a missing column the empty string. -/
def rowFromHeaders (cells : List HNode) :
    BodyMap → List String → Nat → Row → BodyMap × Row
  | m, [], _, row => (m, row)
  | m, h :: hs, colIndex, row =>
    match cells.get? colIndex with
    | some cell =>
      let m2 := hoistCell m cell
      rowFromHeaders cells m2 hs (colIndex + 1) (upsertRow row h (pyStrip (bodyOf m2 cell)))
    | none => rowFromHeaders cells m hs (colIndex + 1) (upsertRow row h "")

/-- The loop over `trows[1:]`: each data row's cells are its `td`
descendants followed by its `th` descendants. -/
def tableRowsLoop (headers : List String) : BodyMap → List HNode → List Row
  | _, [] => []
  | m, tr :: trs =>
    let cells := getDescendants (some "td") tr ++ getDescendants (some "th") tr
    let st := rowFromHeaders cells m headers 0 []
    st.2 :: tableRowsLoop headers st.1 trs

/-- `HTMLNode._handle_table_extract` (node.py lines 131-175): all `tr`
descendants; the first is the header row (header cells: `th` descendants
then `td` descendants); every subsequent `tr` yields one row object. -/
def handleTableExtract (n : HNode) : List Row :=
  match getDescendants (some "tr") n with
  | [] => []
  | headerRow :: rest =>
    let headerCells :=
      getDescendants (some "th") headerRow ++ getDescendants (some "td") headerRow
    let st := extractHeaders [] headerCells
    tableRowsLoop st.2 st.1 rest

/-- `set_extract_instructions` stores `fields or None`: an empty list is
normalized to `None`. -/
def normFields : Option (List String) → Option (List String)
  | some [] => none
  | o => o

/-- Python truthiness of the `extract_fields` value (`if self.extract_fields:`). -/
def fieldsTruthy : Option (List String) → Bool
  | none => false
  | some l => !l.isEmpty

def rowsToJ (rows : List Row) : J :=
  J.jarr (rows.map (fun r => J.jobj (r.map (fun p => (p.1, J.js p.2)))))

def jAttrs (attrs : List (String × String)) : J :=
  J.jobj (attrs.map (fun p => (p.1, J.js p.2)))

def jFlags (f : EFlags) : J :=
  J.jobj [("ignore_children", J.jb f.ignore_children),
          ("ignore_grandchildren", J.jb f.ignore_grandchildren),
          ("table", J.jb f.table)]

def jFields : Option (List String) → J
  | none => J.jnull
  | some l => J.jarr (l.map J.js)

def jParent : Option Nat → J
  | none => J.jnull
  | some p => J.js (toString p)

def upsertJ (r : List (String × J)) (k : String) (v : J) : List (String × J) :=
  if (r.find? (fun p => p.1 == k)).isSome then
    r.map (fun p => if p.1 == k then (k, v) else p)
  else r ++ [(k, v)]

mutual

/-- `HTMLNode.to_dict` (node.py lines 47-83) with the node's stored
extraction directives passed explicitly: before projecting, the source
overwrites each child's stored directives via `set_extract_instructions`
(fields := `self.extract_fields or None`, ignore_children :=
`self.extract_flags["ignore_grandchildren"]`, other flags false) and the
child is then projected with exactly those; the embedding passes the
overwritten directives down instead of mutating.  `Except.error ()` models
the `GoatspeakInterpreterException` ("Table extraction requested on a
non-table node") and the `IndexError` on an empty field name. -/
def toDictWith : HNode → Option (List String) → EFlags → Bool → Except Unit J
  | .mk d cs, efields, eflags, ignoreChildrenArg =>
    if eflags.table then
      if d.tag_type != "table" then Except.error ()
      else Except.ok (rowsToJ (handleTableExtract (.mk d cs)))
    else
      let ic := eflags.ignore_children || ignoreChildrenArg
      let childFields := normFields efields
      let childFlags : EFlags := ⟨eflags.ignore_grandchildren, false, false⟩
      if fieldsTruthy efields then
        match extractFieldsGo (.mk d cs) (efields.getD []) efields eflags ic childFields childFlags [] with
        | Except.error e => Except.error e
        | Except.ok l => Except.ok (J.jobj l)
      else if ic then
        Except.ok (J.jobj
          [("id", J.js (toString d.nid)), ("raw", J.js d.raw),
           ("tag_type", J.js d.tag_type), ("has_data", J.jb d.has_data),
           ("html_attributes", jAttrs d.html_attributes), ("body", J.js d.body),
           ("retrieval_instructions", J.js d.retrieval_instructions),
           ("parent", jParent d.parentId), ("extract_fields", jFields efields),
           ("extract_flags", jFlags eflags)])
      else
        match childrenDicts cs childFields childFlags with
        | Except.error e => Except.error e
        | Except.ok cds =>
          Except.ok (J.jobj
            [("id", J.js (toString d.nid)), ("raw", J.js d.raw),
             ("tag_type", J.js d.tag_type), ("has_data", J.jb d.has_data),
             ("html_attributes", jAttrs d.html_attributes), ("body", J.js d.body),
             ("children", J.jarr cds),
             ("retrieval_instructions", J.js d.retrieval_instructions),
             ("parent", jParent d.parentId), ("extract_fields", jFields efields),
             ("extract_flags", jFlags eflags)])
termination_by n _ _ _ => (sizeOf n, 2, 0)

/-- `HTMLNode._handle_extract_fields`: one dict entry per recognized
field, in field-list order; `@`-prefixed names pull from the HTML
attributes (missing: `None`); `children` is skipped when children are
ignored; unrecognized names are skipped; an empty name raises. -/
def extractFieldsGo : HNode → List String → Option (List String) → EFlags → Bool →
    Option (List String) → EFlags → List (String × J) → Except Unit (List (String × J))
  | _, [], _, _, _, _, _, acc => Except.ok acc
  | .mk d cs, f :: fs, efields, eflags, ic, childFields, childFlags, acc =>
    if f == "" then Except.error ()
    else if firstCharIsAt f then
      let v := match attrLookup d.html_attributes f with
               | none => J.jnull
               | some s => J.js s
      extractFieldsGo (.mk d cs) fs efields eflags ic childFields childFlags (upsertJ acc f v)
    else if f == "id" then
      extractFieldsGo (.mk d cs) fs efields eflags ic childFields childFlags
        (upsertJ acc "id" (J.js (toString d.nid)))
    else if f == "tag_type" then
      extractFieldsGo (.mk d cs) fs efields eflags ic childFields childFlags
        (upsertJ acc "tag_type" (J.js d.tag_type))
    else if f == "has_data" then
      extractFieldsGo (.mk d cs) fs efields eflags ic childFields childFlags
        (upsertJ acc "has_data" (J.jb d.has_data))
    else if f == "html_attributes" then
      extractFieldsGo (.mk d cs) fs efields eflags ic childFields childFlags
        (upsertJ acc "html_attributes" (jAttrs d.html_attributes))
    else if f == "body" then
      extractFieldsGo (.mk d cs) fs efields eflags ic childFields childFlags
        (upsertJ acc "body" (J.js d.body))
    else if f == "children" then
      if !ic then
        match childrenDicts cs childFields childFlags with
        | Except.error e => Except.error e
        | Except.ok cds =>
          extractFieldsGo (.mk d cs) fs efields eflags ic childFields childFlags
            (upsertJ acc "children" (J.jarr cds))
      else
        extractFieldsGo (.mk d cs) fs efields eflags ic childFields childFlags acc
    else if f == "retrieval_instructions" then
      extractFieldsGo (.mk d cs) fs efields eflags ic childFields childFlags
        (upsertJ acc "retrieval_instructions" (J.js d.retrieval_instructions))
    else if f == "parent" then
      extractFieldsGo (.mk d cs) fs efields eflags ic childFields childFlags
        (upsertJ acc "parent" (jParent d.parentId))
    else if f == "extract_fields" then
      extractFieldsGo (.mk d cs) fs efields eflags ic childFields childFlags
        (upsertJ acc "extract_fields" (jFields efields))
    else if f == "extract_flags" then
      extractFieldsGo (.mk d cs) fs efields eflags ic childFields childFlags
        (upsertJ acc "extract_flags" (jFlags eflags))
    else
      extractFieldsGo (.mk d cs) fs efields eflags ic childFields childFlags acc
termination_by n fields _ _ _ _ _ _ => (sizeOf n, 1, fields.length)

/-- `[child.to_dict() for child in self.children]` after the children's
directives have been overwritten. -/
def childrenDicts : List HNode → Option (List String) → EFlags → Except Unit (List J)
  | [], _, _ => Except.ok []
  | c :: rest, cf, cfl =>
    match toDictWith c cf cfl false with
    | Except.error e => Except.error e
    | Except.ok j =>
      match childrenDicts rest cf cfl with
      | Except.error e => Except.error e
      | Except.ok js2 => Except.ok (j :: js2)
termination_by cs _ _ => (sizeOf cs, 0, 0)

end

/-- `HTMLNode.to_dict(self, ignore_children=False)`, projecting a node
with its stored extraction directives. -/
def toDict (n : HNode) (ignoreChildrenArg : Bool) : Except Unit J :=
  toDictWith n n.data.extract_fields n.data.extract_flags ignoreChildrenArg

/-! ## The tree builder (gardener.py `Gardener`)

The source extends Python's `html.parser.HTMLParser`, which lexes raw
HTML into start-tag / end-tag / text events and invokes the three
`handle_*` callbacks; the lexer itself is standard-library code, so the
builder is embedded as a state machine over the event stream (each event
also carries the raw tag text that `get_starttag_text()` would report).
Nodes are mutable and aliased (a node is a child of its parent and on the
open-element stack at once), so the state holds an arena: node records
indexed by creation order, with children and parent stored as indices. -/

inductive GEv where
  | start (raw : String) (tag : String) (attrs : List (String × String))
  | stop (tag : String)
  | text (s : String)

structure GNode where
  raw : String
  tag_type : String
  has_data : Bool
  html_attributes : List (String × String)
  body : String
  retrieval_instructions : String
  parentId : Option Nat
  childIds : List Nat
  is_inline : Bool
deriving DecidableEq, Repr

/-- `Gardener` per-parse state: the arena, the root (an index), the
open-element stack (top at the head), and the per-tag occurrence
counters. -/
structure GState where
  nodes : List GNode
  root : Option Nat
  stack : List Nat
  tag_counts : List (String × Nat)
deriving DecidableEq, Repr

def gardenerVoidTags : List String :=
  ["area", "base", "br", "col", "embed", "hr", "img", "input", "link",
   "meta", "param", "source", "track", "wbr"]

def gardenerInlineTags : List String :=
  ["b", "i", "strong", "em", "u", "small", "mark", "sub", "sup", "a",
   "span", "img", "br", "code", "s", "q", "cite"]

/-- `Gardener.AUTO_CLOSE`: the set of new tags that force an open tag to
close. -/
def autoCloseSet (t : String) : List String :=
  if t == "li" then ["li"]
  else if t == "p" then
    ["address", "article", "aside", "blockquote", "div", "dl", "fieldset",
     "footer", "form", "h1", "h2", "h3", "h4", "h5", "h6", "header",
     "hgroup", "hr", "main", "nav", "ol", "p", "pre", "section", "table", "ul"]
  else if t == "dt" then ["dt", "dd"]
  else if t == "dd" then ["dt", "dd"]
  else if t == "tr" then ["tr"]
  else if t == "td" then ["td", "th"]
  else if t == "th" then ["td", "th"]
  else []

def tagOfIdx (nodes : List GNode) (i : Nat) : String :=
  match nodes.get? i with
  | some n => n.tag_type
  | none => ""

def updateNodeAt (nodes : List GNode) (i : Nat) (f : GNode → GNode) : List GNode :=
  match nodes.get? i with
  | none => nodes
  | some n => nodes.set i (f n)

/-- `Gardener._auto_close_before` (gardener.py lines 44-59): while the
innermost open node's tag lists the new tag in `AUTO_CLOSE`, pop it. -/
def autoCloseGo (nodes : List GNode) (newTag : String) : List Nat → List Nat
  | [] => []
  | top :: rest =>
    if (autoCloseSet (tagOfIdx nodes top)).contains newTag then
      autoCloseGo nodes newTag rest
    else top :: rest

def bumpCount (counts : List (String × Nat)) (tag : String) : Nat × List (String × Nat) :=
  match counts.find? (fun p => p.1 == tag) with
  | some p => (p.2 + 1, counts.map (fun q => if q.1 == tag then (tag, p.2 + 1) else q))
  | none => (1, counts ++ [(tag, 1)])

/-- `Gardener.handle_starttag` (gardener.py lines 61-84): auto-close,
create the node (attribute keys get their `"@"` prefix in
`HTMLNode.__init__`), mark inline tags, bump the per-tag counter and
stamp the retrieval instruction, then either become the root or attach to
the innermost open node (falling back to the root), pushing unless the
tag is void. -/
def handleStart (st : GState) (raw tag : String) (attrs : List (String × String)) : GState :=
  let stack1 := autoCloseGo st.nodes tag st.stack
  let nid := st.nodes.length
  let bc := bumpCount st.tag_counts tag
  let node0 : GNode :=
    { raw := raw, tag_type := tag, has_data := false,
      html_attributes := attrs.map (fun p => ("@" ++ p.1, p.2)), body := "",
      retrieval_instructions :=
        "SCRAPE 1 " ++ tag ++ " IN POSITION=" ++ toString bc.1 ++ ";",
      parentId := none, childIds := [],
      is_inline := gardenerInlineTags.contains tag }
  match st.root with
  | none =>
    { nodes := st.nodes ++ [node0], root := some nid,
      stack := if gardenerVoidTags.contains tag then stack1 else nid :: stack1,
      tag_counts := bc.2 }
  | some rootId =>
    let parentId := stack1.headD rootId
    let node1 := { node0 with parentId := some parentId }
    let nodes2 := updateNodeAt (st.nodes ++ [node1]) parentId
      (fun p => { p with childIds := p.childIds ++ [nid] })
    { nodes := nodes2, root := st.root,
      stack := if gardenerVoidTags.contains tag then stack1 else nid :: stack1,
      tag_counts := bc.2 }

/-- `Gardener.handle_endtag` (gardener.py lines 86-93): pop the stack down
through the innermost open node with a matching tag; leave the stack
unchanged if no open node matches. -/
def endDrop (nodes : List GNode) (tag : String) (stack : List Nat) : List Nat :=
  if stack.any (fun i => tagOfIdx nodes i == tag) then
    (stack.dropWhile (fun i => tagOfIdx nodes i != tag)).tail
  else stack

def handleEnd (st : GState) (tag : String) : GState :=
  { st with stack := endDrop st.nodes tag st.stack }

def appendBody (n : GNode) (stripped : String) : GNode :=
  { n with body := if n.body != "" then n.body ++ " " ++ stripped else n.body ++ stripped,
           has_data := true }

/-- `Gardener.handle_data` (gardener.py lines 95-117): trim the text; if
non-empty, append it (space-joined) to the innermost open node's body —
the root when the stack is empty; `none` when there is no node at all —
and, when that node is inline and has a parent, bubble the same trimmed
text into the parent's body as well. -/
def handleData (st : GState) (data : String) : Option GState :=
  let stripped := pyStrip data
  if stripped == "" then some st
  else
    match st.stack.head?.orElse (fun _ => st.root) with
    | none => none
    | some cid =>
      match st.nodes.get? cid with
      | none => none
      | some cur =>
        let nodes1 := st.nodes.set cid (appendBody cur stripped)
        let nodes2 :=
          if cur.is_inline then
            match cur.parentId with
            | some pid => updateNodeAt nodes1 pid (fun p => appendBody p stripped)
            | none => nodes1
          else nodes1
        some { st with nodes := nodes2 }

def stepEv (st : GState) : GEv → Option GState
  | .start raw tag attrs => some (handleStart st raw tag attrs)
  | .stop tag => some (handleEnd st tag)
  | .text s => handleData st s

def initialGState : GState :=
  { nodes := [], root := none, stack := [], tag_counts := [] }

/-- `Gardener.grow_tree` on an already-lexed event stream, starting from
the reset state.  (`_append_root_tag` wraps input lacking `<html>` /
`<body>` before lexing; the wrapper's events are part of the stream.) -/
def growTree (evs : List GEv) : Option GState :=
  evs.foldlM stepEv initialGState

/-! ## Result de-duplication (shepherd.py `Shepherd.herd`)

`herd` ends with `list(dict.fromkeys(results))`.  `HTMLNode` defines
neither `__eq__` nor `__hash__`, so dict keys compare by object identity;
node ids are unique (`uuid4`, one per node), so identity is embedded as
id equality. -/

def pyDedup (results : List HNode) : List HNode :=
  results.foldl
    (fun acc n => if acc.any (fun m => m.data.nid == n.data.nid) then acc else acc ++ [n]) []

/-! ## Specification-side helpers and concrete instances -/

/-- The event stream the standard-library parser produces for
`<ul><li>a<li>b</ul>` after `_append_root_tag` wraps it in
`<html><body>…</body></html>`. -/
def evsAutoClose : List GEv :=
  [.start "<html>" "html" [], .start "<body>" "body" [], .start "<ul>" "ul" [],
   .start "<li>" "li" [], .text "a", .start "<li>" "li" [], .text "b",
   .stop "ul", .stop "body", .stop "html"]

/-- The event stream for `<p>Hello <b>World</b></p>` after wrapping. -/
def evsInline : List GEv :=
  [.start "<html>" "html" [], .start "<body>" "body" [], .start "<p>" "p" [],
   .text "Hello ", .start "<b>" "b" [], .text "World", .stop "b", .stop "p",
   .stop "body", .stop "html"]

/-- A leaf node (no children) with the given id, tag and body. -/
def mkLeaf (i : Nat) (tag body : String) : HNode :=
  .mk { nid := i, raw := "", tag_type := tag, has_data := true, html_attributes := [],
        body := body, retrieval_instructions := "", parentId := none,
        extract_fields := none, extract_flags := ⟨false, false, false⟩ } []

/-- An inner node with the given id, tag, extraction flags and children. -/
def mkInner (i : Nat) (tag : String) (fl : EFlags) (cs : List HNode) : HNode :=
  .mk { nid := i, raw := "", tag_type := tag, has_data := false, html_attributes := [],
        body := "", retrieval_instructions := "", parentId := none,
        extract_fields := none, extract_flags := fl } cs

/-- The tree of `<table><tr><th>A</th><th>B</th></tr><tr><td>1</td><td>2</td></tr></table>`
with the table extract flag set on the table node. -/
def exampleTable : HNode :=
  mkInner 0 "table" ⟨false, false, true⟩
    [ mkInner 1 "tr" ⟨false, false, false⟩ [mkLeaf 2 "th" "A", mkLeaf 3 "th" "B"],
      mkInner 4 "tr" ⟨false, false, false⟩ [mkLeaf 5 "td" "1", mkLeaf 6 "td" "2"] ]

/-- The same table with the data row one cell short. -/
def exampleTableShort : HNode :=
  mkInner 0 "table" ⟨false, false, true⟩
    [ mkInner 1 "tr" ⟨false, false, false⟩ [mkLeaf 2 "th" "A", mkLeaf 3 "th" "B"],
      mkInner 4 "tr" ⟨false, false, false⟩ [mkLeaf 5 "td" "1"] ]

/-- A non-table node carrying the table extract flag. -/
def exampleDivTableFlag : HNode :=
  mkInner 9 "div" ⟨false, false, true⟩ []

/-- A small document: `html` root with three `li` descendants (ids 1, 3, 4)
at preorder tag-ranks 1, 2, 3. -/
def exampleTree : HNode :=
  mkInner 0 "html" ⟨false, false, false⟩
    [mkLeaf 1 "li" "x",
     mkInner 2 "div" ⟨false, false, false⟩ [mkLeaf 3 "li" "y"],
     mkLeaf 4 "li" "z"]

/-- A condition never raising when evaluated with a root present: an
`IfCondition` needs a `query_tag` (`matches` raises on `None`) and a
non-empty key (`key[0]` raises on `""`); an ordinal `InCondition` needs a
truthy owning tag. -/
def condWF : Condition → Prop
  | .ifCond key _ _ query_tag _ => query_tag.isSome ∧ key ≠ ""
  | .inCond target _ _ query_tag =>
      target = "POSITION" → ∃ t, query_tag = some t ∧ t ≠ ""

/-- The matches of a graze command among the nodes of the root's preorder
traversal (the predicate `GrazeCommand._evaluate` decides). -/
def grazeMatches (cmd : GrazeCmd) (root : HNode) : List HNode :=
  (preorder root).filter (fun n => (grazeEval cmd n root).getD false)

/-- Direct results of a run of scrape commands at a fixed root: each
command's matches, concatenated in command order. -/
def scrapeResults (root : HNode) : List GrazeCmd → Option (List HNode)
  | [] => some []
  | c :: cs =>
    match c.execute root with
    | none => none
    | some rs =>
      match scrapeResults root cs with
      | none => none
      | some more => some (rs ++ more)

/-- A flat table: the children of the table node are its `tr` rows, and
each row's children are its `th`/`td` cells, all childless. -/
def flatTable (n : HNode) : Prop :=
  n.data.extract_flags.table = true ∧ n.data.tag_type = "table" ∧
  ∀ tr ∈ n.children, tr.data.tag_type = "tr" ∧
    ∀ c ∈ tr.children, (c.data.tag_type = "th" ∨ c.data.tag_type = "td") ∧ c.children = []

/-- The header names of a flat table's header row: `th` cells then `td`
cells, bodies stripped. -/
def specHeaders (headerRow : HNode) : List String :=
  ((headerRow.children.filter (fun c => c.data.tag_type == "th")) ++
   (headerRow.children.filter (fun c => c.data.tag_type == "td"))).map
    (fun c => pyStrip c.data.body)

/-- The cells of a flat table's data row: `td` cells then `th` cells. -/
def specCells (tr : HNode) : List HNode :=
  tr.children.filter (fun c => c.data.tag_type == "td") ++
  tr.children.filter (fun c => c.data.tag_type == "th")

/-- One row object of a flat table: the i-th header maps to the i-th
cell's stripped body, or `""` past the row's end. -/
def specRow (cells : List HNode) : List String → Nat → Row → Row
  | [], _, row => row
  | h :: hs, i, row =>
    specRow cells hs (i + 1)
      (upsertRow row h (match cells.get? i with
        | some c => pyStrip c.data.body
        | none => ""))

/-- First-occurrence filtering of a node list by id, given the ids already
seen: the reference shape of `list(dict.fromkeys(results))`. -/
def keepFirst (seen : List Nat) : List HNode → List HNode
  | [] => []
  | n :: rest =>
    if seen.contains n.data.nid then keepFirst seen rest
    else n :: keepFirst (n.data.nid :: seen) rest

/-- The script ends with a query terminator (SCRAPE/EXTRACT/OUTPUT). -/
def lastIsTerminator (cmds : List Cmd) : Bool :=
  match cmds.getLast? with
  | some c => isTerminator c
  | none => false

/-! ## Theorems -/

/-- C7: parsing `<ul><li>a<li>b</ul>` with the tree builder produces a
`ul` node (arena index 2) with two `li` children (indices 3 and 4) that
are siblings in document order — both have the `ul` as parent, the first
`li` has no children (so the second is not nested inside it), because an
open `li` auto-closes before a new `li` start tag. -/
theorem c7_auto_close_siblings :
    (growTree evsAutoClose).map
        (fun st => st.nodes.map (fun n => (n.tag_type, n.childIds, n.parentId))) =
      some [("html", [1], none), ("body", [2], some 0), ("ul", [3, 4], some 1),
            ("li", ([] : List Nat), some 2), ("li", ([] : List Nat), some 2)] := by
  decide

/-- C8: parsing `<p>Hello <b>World</b></p>` yields a `p` node (index 2)
whose body is `"Hello World"` — it contains both `"Hello"` and `"World"`
— while the inline `b` node (index 3) keeps its own body `"World"`: text
inside an inline element is appended to the inline node's body and
additionally bubbled into its parent's body. -/
theorem c8_inline_bubbling :
    (growTree evsInline).map (fun st => st.nodes.map (fun n => (n.tag_type, n.body))) =
      some [("html", ""), ("body", ""), ("p", "Hello World"), ("b", "World")] := by
  decide

theorem manage_char (instr : List Cmd) (c : Cmd) (bs : List GoatspeakBlock) :
    manageState (instr ++ [c]) bs =
      if flushTriggered (instr ++ [c]) then
        match bs.getLast? with
        | none => none
        | some b =>
          let bs2 := bs.dropLast ++ [{ b with query_list := b.query_list ++ [mkQuery instr] }]
          if c.action == CAction.visit then some ([c], bs2 ++ [{ fetch_command := some c, query_list := [] }])
          else some ([c], bs2)
      else
        if c.action == CAction.visit then
          some ([c], bs ++ [{ fetch_command := some c, query_list := [] }])
        else some (instr ++ [c], bs) := by
  rcases hb : bs.getLast? with _ | b <;>
    rcases hc : c.action == CAction.visit with _ | _ <;>
    by_cases h : flushTriggered (instr ++ [c]) = true <;>
    simp [manageState, appendQueryToLast, h, hb, hc,
      List.getLast?_concat, List.dropLast_concat]

theorem countVisits_cons (c : Cmd) (rest : List Cmd) :
    countVisits (c :: rest) = (if c.action == CAction.visit then 1 else 0) + countVisits rest := by
  by_cases h : (c.action == CAction.visit) = true <;>
    simp [countVisits, List.filter_cons, h, Nat.add_comm]

theorem interpretLoop_append (a b : List Cmd) (instr : List Cmd) (bs : List GoatspeakBlock) :
    interpretLoop (a ++ b) instr bs =
      match interpretLoop a instr bs with
      | none => none
      | some (i2, b2) => interpretLoop b i2 b2 := by
  induction a generalizing instr bs with
  | nil => simp [interpretLoop]
  | cons c rest ih =>
    simp only [List.cons_append, interpretLoop]
    rcases manageState (instr ++ [c]) bs with _ | ⟨i2, b2⟩
    · rfl
    · exact ih i2 b2

theorem interpretLoop_spec (cmds : List Cmd) :
    ∀ instr bs, instr ≠ [] → bs ≠ [] →
    ∃ i2 b2, interpretLoop cmds instr bs = some (i2, b2) ∧ i2 ≠ [] ∧ b2 ≠ [] ∧
      b2.length = bs.length + countVisits cmds ∧
      i2.getLast? = (instr ++ cmds).getLast? := by
  induction cmds with
  | nil =>
    intro instr bs hi hb
    exact ⟨instr, bs, rfl, hi, hb, by simp [countVisits], by simp⟩
  | cons c rest ih =>
    intro instr bs hi hb
    rcases List.eq_nil_or_concat' bs with rfl | ⟨B, b, rfl⟩
    · exact absurd rfl hb
    simp only [interpretLoop, manage_char, List.getLast?_concat]
    rw [countVisits_cons]
    by_cases hf : flushTriggered (instr ++ [c]) = true <;>
      by_cases hc : (c.action == CAction.visit) = true <;>
      simp only [hf, hc, if_true, if_false, Bool.false_eq_true]
    · obtain ⟨i2, b2, h1, h2, h3, h4, h5⟩ :=
        ih [c] ((B ++ [b]).dropLast ++ [{ b with query_list := b.query_list ++ [mkQuery instr] }]
          ++ [{ fetch_command := some c, query_list := [] }]) (by simp) (by simp)
      refine ⟨i2, b2, h1, h2, h3, ?_, ?_⟩
      · rw [h4]; simp [List.dropLast_concat]; try omega
      · rw [h5, List.getLast?_append_cons]; rfl
    · obtain ⟨i2, b2, h1, h2, h3, h4, h5⟩ :=
        ih [c] ((B ++ [b]).dropLast ++ [{ b with query_list := b.query_list ++ [mkQuery instr] }])
          (by simp) (by simp)
      refine ⟨i2, b2, h1, h2, h3, ?_, ?_⟩
      · rw [h4]; simp [List.dropLast_concat]; try omega
      · rw [h5, List.getLast?_append_cons]; rfl
    · obtain ⟨i2, b2, h1, h2, h3, h4, h5⟩ :=
        ih [c] ((B ++ [b]) ++ [{ fetch_command := some c, query_list := [] }]) (by simp) (by simp)
      refine ⟨i2, b2, h1, h2, h3, ?_, ?_⟩
      · rw [h4]; simp; try omega
      · rw [h5, List.getLast?_append_cons]; rfl
    · obtain ⟨i2, b2, h1, h2, h3, h4, h5⟩ := ih (instr ++ [c]) (B ++ [b]) (by simp) (by simp)
      refine ⟨i2, b2, h1, h2, h3, ?_, ?_⟩
      · rw [h4]; omega
      · rw [h5, List.append_assoc]; rfl

theorem interpretLoop_fetch (cmds : List Cmd) :
    ∀ instr bs i2 b2, interpretLoop cmds instr bs = some (i2, b2) →
      (∀ x ∈ bs, x.fetch_command.isSome = true) → ∀ x ∈ b2, x.fetch_command.isSome = true := by
  induction cmds with
  | nil =>
    intro instr bs i2 b2 h hall
    simp only [interpretLoop, Option.some.injEq, Prod.mk.injEq] at h
    obtain ⟨rfl, rfl⟩ := h
    exact hall
  | cons c rest ih =>
    intro instr bs i2 b2 h hall
    rcases List.eq_nil_or_concat' bs with rfl | ⟨B, b, rfl⟩
    · simp only [interpretLoop, manage_char] at h
      by_cases hf : flushTriggered (instr ++ [c]) = true
      · simp [hf] at h
      · by_cases hc : (c.action == CAction.visit) = true
        · simp only [hf, hc, Bool.false_eq_true, if_false, if_true] at h
          refine ih _ _ _ _ h ?_
          intro x hx
          simp only [List.nil_append, List.mem_singleton] at hx
          subst hx; simp
        · simp only [hf, hc, Bool.false_eq_true, if_false] at h
          exact ih _ _ _ _ h hall
    · have hmod : ∀ x ∈ B ++ [{ b with query_list := b.query_list ++ [mkQuery instr] }],
          x.fetch_command.isSome = true := by
        intro x hx
        rcases List.mem_append.mp hx with h2 | h2
        · exact hall x (by simp [h2])
        · simp only [List.mem_singleton] at h2
          subst h2; simpa using hall b (by simp)
      simp only [interpretLoop, manage_char, List.getLast?_concat, List.dropLast_concat] at h
      by_cases hf : flushTriggered (instr ++ [c]) = true <;>
        by_cases hc : (c.action == CAction.visit) = true <;>
        simp only [hf, hc, Bool.false_eq_true, if_false, if_true] at h
      · refine ih _ _ _ _ h ?_
        intro x hx
        rcases List.mem_append.mp hx with h2 | h2
        · exact hmod x h2
        · simp only [List.mem_singleton] at h2; subst h2; simp
      · exact ih _ _ _ _ h hmod
      · refine ih _ _ _ _ h ?_
        intro x hx
        rcases List.mem_append.mp hx with h2 | h2
        · exact hall x h2
        · simp only [List.mem_singleton] at h2; subst h2; simp
      · exact ih _ _ _ _ h hall

theorem interpretLoop_visit_nonempty (cmds : List Cmd) :
    ∀ instr bs i2 b2, interpretLoop cmds instr bs = some (i2, b2) →
      ((∃ c ∈ cmds, c.action = CAction.visit) ∨ bs ≠ []) → b2 ≠ [] := by
  induction cmds with
  | nil =>
    intro instr bs i2 b2 h hvis
    simp only [interpretLoop, Option.some.injEq, Prod.mk.injEq] at h
    obtain ⟨rfl, rfl⟩ := h
    rcases hvis with ⟨c, hc, _⟩ | hb
    · exact absurd hc (by simp)
    · exact hb
  | cons c rest ih =>
    intro instr bs i2 b2 h hvis
    rcases List.eq_nil_or_concat' bs with rfl | ⟨B, b, rfl⟩
    · simp only [interpretLoop, manage_char] at h
      by_cases hf : flushTriggered (instr ++ [c]) = true
      · simp [hf] at h
      · by_cases hc : (c.action == CAction.visit) = true
        · simp only [hf, hc, Bool.false_eq_true, if_false, if_true] at h
          exact ih _ _ _ _ h (Or.inr (by simp))
        · simp only [hf, hc, Bool.false_eq_true, if_false] at h
          rcases hvis with ⟨d, hd, hdv⟩ | hb
          · rcases List.mem_cons.mp hd with rfl | hd'
            · exact absurd (by rw [hdv]; decide) hc
            · exact ih _ _ _ _ h (Or.inl ⟨d, hd', hdv⟩)
          · exact absurd rfl hb
    · simp only [interpretLoop, manage_char, List.getLast?_concat, List.dropLast_concat] at h
      by_cases hf : flushTriggered (instr ++ [c]) = true <;>
        by_cases hc : (c.action == CAction.visit) = true <;>
        simp only [hf, hc, Bool.false_eq_true, if_false, if_true] at h <;>
        exact ih _ _ _ _ h (Or.inr (by simp))

theorem interpretLoop_novisit (cmds : List Cmd) :
    ∀ instr i2 b2, interpretLoop cmds instr [] = some (i2, b2) →
      (∀ c ∈ cmds, c.action ≠ CAction.visit) → (∀ c ∈ instr, c.action ≠ CAction.visit) →
      b2 = [] ∧ (∀ c ∈ i2, c.action ≠ CAction.visit) := by
  induction cmds with
  | nil =>
    intro instr i2 b2 h _ hin
    simp only [interpretLoop, Option.some.injEq, Prod.mk.injEq] at h
    obtain ⟨rfl, rfl⟩ := h
    exact ⟨rfl, hin⟩
  | cons c rest ih =>
    intro instr i2 b2 h hcmds hin
    simp only [interpretLoop, manage_char] at h
    by_cases hf : flushTriggered (instr ++ [c]) = true
    · simp [hf] at h
    · have hc : (c.action == CAction.visit) = false := by
        simpa using hcmds c (by simp)
      simp only [hf, hc, Bool.false_eq_true, if_false] at h
      refine ih _ _ _ h (fun d hd => hcmds d (by simp [hd])) ?_
      intro d hd
      rcases List.mem_append.mp hd with h2 | h2
      · exact hin d h2
      · simp only [List.mem_singleton] at h2; subst h2
        exact hcmds d (by simp)

theorem manage_instr_cases {instr : List Cmd} {c : Cmd} {bs : List GoatspeakBlock}
    {i1 : List Cmd} {b1 : List GoatspeakBlock}
    (h : manageState (instr ++ [c]) bs = some (i1, b1)) :
    i1 = [c] ∨ i1 = instr ++ [c] := by
  rw [manage_char] at h
  by_cases hf : flushTriggered (instr ++ [c]) = true <;>
    by_cases hc : (c.action == CAction.visit) = true <;>
    simp only [hf, hc, Bool.false_eq_true, if_true, if_false] at h
  · rcases hb : bs.getLast? with _ | b <;> rw [hb] at h
    · simp at h
    · simp only [Option.some.injEq, Prod.mk.injEq] at h
      exact Or.inl h.1.symm
  · rcases hb : bs.getLast? with _ | b <;> rw [hb] at h
    · simp at h
    · simp only [Option.some.injEq, Prod.mk.injEq] at h
      exact Or.inl h.1.symm
  · simp only [Option.some.injEq, Prod.mk.injEq] at h
    exact Or.inl h.1.symm
  · simp only [Option.some.injEq, Prod.mk.injEq] at h
    exact Or.inr h.1.symm

theorem interpretLoop_ne_nil (cmds : List Cmd) :
    ∀ instr bs i2 b2, interpretLoop cmds instr bs = some (i2, b2) → cmds ≠ [] → i2 ≠ [] := by
  induction cmds with
  | nil => intro _ _ _ _ _ hne; exact absurd rfl hne
  | cons c rest ih =>
    intro instr bs i2 b2 h _
    cases hm : manageState (instr ++ [c]) bs with
    | none => rw [interpretLoop, hm] at h; exact absurd h (by simp)
    | some p =>
      obtain ⟨i1, b1⟩ := p
      rw [interpretLoop, hm] at h
      rcases rest with _ | ⟨r, rs⟩
      · simp only [interpretLoop, Option.some.injEq, Prod.mk.injEq] at h
        obtain ⟨rfl, rfl⟩ := h
        rcases manage_instr_cases hm with rfl | rfl <;> simp
      · exact ih _ _ _ _ h (by simp)

theorem final_append (instr : List Cmd) (B : List GoatspeakBlock) (b : GoatspeakBlock)
    (hi : instr ≠ []) :
    interpretFinal instr (B ++ [b]) =
      some (B ++ [{ b with query_list := b.query_list ++ [mkQuery instr] }]) := by
  simp [interpretFinal, appendQueryToLast, List.getLast?_concat, List.dropLast_concat, hi]

theorem manage_b1_ne_nil {instr : List Cmd} {c : Cmd} {bs : List GoatspeakBlock}
    {i1 : List Cmd} {b1 : List GoatspeakBlock}
    (h : manageState (instr ++ [c]) bs = some (i1, b1)) (hb : bs ≠ []) : b1 ≠ [] := by
  rcases List.eq_nil_or_concat' bs with rfl | ⟨B, b, rfl⟩
  · exact absurd rfl hb
  rw [manage_char] at h
  by_cases hf : flushTriggered (instr ++ [c]) = true <;>
    by_cases hc : (c.action == CAction.visit) = true <;>
    simp only [hf, hc, Bool.false_eq_true, if_true, if_false, List.getLast?_concat,
      List.dropLast_concat, Option.some.injEq, Prod.mk.injEq] at h <;>
    obtain ⟨-, rfl⟩ := h <;> simp

theorem manage_keeps_pre (instr : List Cmd) (c : Cmd) (pre bs : List GoatspeakBlock)
    (hb : bs ≠ []) :
    manageState (instr ++ [c]) (pre ++ bs) =
      (manageState (instr ++ [c]) bs).map (fun r => (r.1, pre ++ r.2)) := by
  rcases List.eq_nil_or_concat' bs with rfl | ⟨B, b, rfl⟩
  · exact absurd rfl hb
  rw [manage_char, manage_char]
  by_cases hf : flushTriggered (instr ++ [c]) = true <;>
    by_cases hc : (c.action == CAction.visit) = true <;>
    simp [hf, hc, ← List.append_assoc, List.getLast?_concat, List.dropLast_concat]

theorem interpretLoop_keeps_pre (cmds : List Cmd) :
    ∀ instr pre bs, bs ≠ [] →
      interpretLoop cmds instr (pre ++ bs) =
        (interpretLoop cmds instr bs).map (fun r => (r.1, pre ++ r.2)) := by
  induction cmds with
  | nil => intro instr pre bs _; simp [interpretLoop]
  | cons c rest ih =>
    intro instr pre bs hb
    simp only [interpretLoop]
    rw [manage_keeps_pre instr c pre bs hb]
    cases hm : manageState (instr ++ [c]) bs with
    | none => simp
    | some p =>
      obtain ⟨i1, b1⟩ := p
      simp only [Option.map_some']
      exact ih i1 pre b1 (manage_b1_ne_nil hm hb)

theorem final_keeps_pre (instr : List Cmd) (pre bs : List GoatspeakBlock) (hb : bs ≠ []) :
    interpretFinal instr (pre ++ bs) = (interpretFinal instr bs).map (fun r => pre ++ r) := by
  rcases List.eq_nil_or_concat' bs with rfl | ⟨B, b, rfl⟩
  · exact absurd rfl hb
  rcases instr with _ | ⟨i, is2⟩
  · simp [interpretFinal]
  · rw [← List.append_assoc, final_append _ _ _ (by simp), final_append _ _ _ (by simp)]
    simp

theorem interpret_visit_start (v : Cmd) (rest : List Cmd)
    (hv : (v.action == CAction.visit) = true) :
    interpretLoop (v :: rest) [] [] =
      interpretLoop rest [v] [{ fetch_command := some v, query_list := [] }] := by
  have hm : manageState ([] ++ [v]) ([] : List GoatspeakBlock) =
      some ([v], [{ fetch_command := some v, query_list := [] }]) := by
    rw [manage_char]
    have hf : flushTriggered [v] = false := rfl
    simp [hf, hv]
  simp only [interpretLoop]
  rw [hm]

/-- C1 (counterexample): the claim "interpretation of a script with N
VISIT statements returns exactly N blocks" fails at the one-statement
script `SCRAPE …;` — it has no VISIT statement, yet `interpret`
synthesizes one block around the final query, returning 1 block, not 0. -/
theorem c1_counterexample :
    countVisits [{ action := CAction.scrape, uid := 0 }] = 0 ∧
      (interpret [{ action := CAction.scrape, uid := 0 }]).map List.length = some 1 := by
  decide

/-- C1 (amended): (1) for every script whose FIRST statement is a VISIT,
`interpret` succeeds and returns exactly N blocks for N VISIT statements;
(2) queries are owned by the preceding VISIT's block in the following
compositional sense: splitting a script before a VISIT, at a point where
the statement before the split is a SCRAPE/EXTRACT/OUTPUT (a query
terminator), splits the block list — `interpret (cs1 ++ cs2)` is the
concatenation of `interpret cs1` and `interpret cs2`, so every query of a
block arises only from the statements between that block's VISIT and the
next.  (Without these provisos the original claim fails: with no VISIT,
one block is synthesized; and a SELECT immediately before a later VISIT
is silently dropped rather than grouped.) -/
theorem c1_blocks_per_visit :
    (∀ cmds : List Cmd, firstIsVisit cmds = true →
        (interpret cmds).map List.length = some (countVisits cmds)) ∧
    (∀ cs1 cs2 : List Cmd, ∀ bs1 bs2 : List GoatspeakBlock,
        firstIsVisit cs1 = true → firstIsVisit cs2 = true → lastIsTerminator cs1 = true →
        interpret cs1 = some bs1 → interpret cs2 = some bs2 →
        interpret (cs1 ++ cs2) = some (bs1 ++ bs2)) := by
  constructor
  · intro cmds hfirst
    rcases cmds with _ | ⟨v, rest⟩
    · simp [firstIsVisit] at hfirst
    have hv : (v.action == CAction.visit) = true := by
      simpa [firstIsVisit] using hfirst
    rw [interpret, interpret_visit_start v rest hv]
    obtain ⟨i2, b2, hloop, hi2, hb2, hlen, -⟩ :=
      interpretLoop_spec rest [v] [{ fetch_command := some v, query_list := [] }]
        (by simp) (by simp)
    rw [hloop]
    rcases List.eq_nil_or_concat' b2 with rfl | ⟨B, b, rfl⟩
    · exact absurd rfl hb2
    show Option.map List.length (interpretFinal i2 (B ++ [b])) = some (countVisits (v :: rest))
    rw [final_append _ _ _ hi2]
    simp only [Option.map_some', Option.some.injEq]
    rw [countVisits_cons, hv, if_pos rfl]
    simp only [List.length_append, List.length_singleton] at hlen ⊢
    omega
  · intro cs1 cs2 bs1 bs2 h1 h2 hterm hint1 hint2
    rcases cs1 with _ | ⟨v1, r1⟩
    · simp [firstIsVisit] at h1
    rcases cs2 with _ | ⟨v2, r2⟩
    · simp [firstIsVisit] at h2
    have hv1 : (v1.action == CAction.visit) = true := by simpa [firstIsVisit] using h1
    have hv2 : (v2.action == CAction.visit) = true := by simpa [firstIsVisit] using h2
    obtain ⟨i1, b1, hloop1, hi1, hb1, -, hlast1⟩ :=
      interpretLoop_spec r1 [v1] [{ fetch_command := some v1, query_list := [] }]
        (by simp) (by simp)
    have hint1' : interpretFinal i1 b1 = some bs1 := by
      rw [interpret, interpret_visit_start v1 r1 hv1, hloop1] at hint1
      exact hint1
    obtain ⟨t, hgl, htm⟩ : ∃ t, i1.getLast? = some t ∧ isTerminator t = true := by
      rcases hlt : (v1 :: r1).getLast? with _ | t
      · simp at hlt
      refine ⟨t, ?_, ?_⟩
      · rw [hlast1]; simpa using hlt
      · have h' := hterm
        rw [lastIsTerminator, hlt] at h'
        exact h'
    rcases List.eq_nil_or_concat' b1 with rfl | ⟨B1, bb, rfl⟩
    · exact absurd rfl hb1
    have hft : flushTriggered (i1 ++ [v2]) = true := by
      rw [flushTriggered, List.dropLast_concat, List.getLast?_concat, hgl]
      simp [htm, isStarter, hv2]
    have hseam : manageState (i1 ++ [v2]) (B1 ++ [bb]) =
        some ([v2], (B1 ++ [{ bb with query_list := bb.query_list ++ [mkQuery i1] }])
          ++ [{ fetch_command := some v2, query_list := [] }]) := by
      rw [manage_char]
      simp [hft, hv2, List.getLast?_concat, List.dropLast_concat]
    have hbs1 : B1 ++ [{ bb with query_list := bb.query_list ++ [mkQuery i1] }] = bs1 := by
      rw [final_append _ _ _ hi1] at hint1'
      simpa using hint1'
    obtain ⟨i2, b2, hloop2, hi2, hb2, -, -⟩ :=
      interpretLoop_spec r2 [v2] [{ fetch_command := some v2, query_list := [] }]
        (by simp) (by simp)
    have hint2' : interpretFinal i2 b2 = some bs2 := by
      rw [interpret, interpret_visit_start v2 r2 hv2, hloop2] at hint2
      exact hint2
    rw [interpret, show (v1 :: r1) ++ (v2 :: r2) = v1 :: (r1 ++ v2 :: r2) from rfl,
      interpret_visit_start v1 _ hv1, interpretLoop_append, hloop1]
    simp only [interpretLoop]
    rw [hseam, hbs1]
    show (match interpretLoop r2 [v2]
        (bs1 ++ [{ fetch_command := some v2, query_list := [] }]) with
      | none => none
      | some (instructions, blocks) => interpretFinal instructions blocks) = some (bs1 ++ bs2)
    rw [interpretLoop_keeps_pre r2 [v2] bs1 [{ fetch_command := some v2, query_list := [] }] (by simp),
      hloop2]
    simp only [Option.map_some']
    show interpretFinal i2 (bs1 ++ b2) = some (bs1 ++ bs2)
    rw [final_keeps_pre i2 bs1 b2 hb2, hint2']
    rfl

/-- Witness for C1's amended theorem at concrete scripts: `VISIT; SCRAPE;`
followed by `VISIT;` — part (1) gives two blocks for its two VISITs, and
part (2) splits the interpretation at the second VISIT. -/
theorem c1_blocks_per_visit_witness :
    firstIsVisit [⟨CAction.visit, 0⟩, ⟨CAction.scrape, 1⟩] = true ∧
    (interpret ([⟨CAction.visit, 0⟩, ⟨CAction.scrape, 1⟩] ++ [⟨CAction.visit, 2⟩])).map
        List.length = some 2 := by
  refine ⟨by decide, ?_⟩
  have h := c1_blocks_per_visit.2 [⟨CAction.visit, 0⟩, ⟨CAction.scrape, 1⟩] [⟨CAction.visit, 2⟩]
    [⟨some ⟨CAction.visit, 0⟩,
      [⟨some ⟨CAction.visit, 0⟩, [⟨CAction.scrape, 1⟩], none, none⟩]⟩]
    [⟨some ⟨CAction.visit, 2⟩, [⟨some ⟨CAction.visit, 2⟩, [], none, none⟩]⟩]
    (by decide) (by decide) (by decide) (by decide) (by decide)
  rw [h]
  rfl

/-- C9 (counterexample): interpreting the no-VISIT script `SCRAPE …;`
returns one block whose `fetch_command` is `None` — the synthesized block
does NOT own a Fetch command, contradicting the claim (which asserts a
present fetch even for that synthesized block). -/
theorem c9_counterexample :
    (interpret [{ action := CAction.scrape, uid := 0 }]).map
        (fun bs => bs.map GoatspeakBlock.fetch_command) = some [none] := by
  decide

/-- C9 (amended): every block created for a VISIT statement owns that
fetch command, so whenever the script contains at least one VISIT, every
returned block's `fetch_command` is present; but for a script with no
VISIT statement, every returned block (the one synthesized at end of
input) has `fetch_command = None`. -/
theorem c9_block_fetch :
    (∀ cmds bs, interpret cmds = some bs →
        (∃ c ∈ cmds, c.action = CAction.visit) →
        ∀ b ∈ bs, b.fetch_command.isSome = true) ∧
    (∀ cmds bs, interpret cmds = some bs →
        (∀ c ∈ cmds, c.action ≠ CAction.visit) →
        ∀ b ∈ bs, b.fetch_command = none) := by
  constructor
  · intro cmds bs hint hvis
    rw [interpret] at hint
    cases hloop : interpretLoop cmds [] [] with
    | none => rw [hloop] at hint; exact absurd hint (by simp)
    | some p =>
      obtain ⟨i2, b2⟩ := p
      rw [hloop] at hint
      have hfetch : ∀ x ∈ b2, x.fetch_command.isSome = true :=
        interpretLoop_fetch cmds [] [] i2 b2 hloop (by simp)
      have hb2 : b2 ≠ [] :=
        interpretLoop_visit_nonempty cmds [] [] i2 b2 hloop (Or.inl hvis)
      replace hint : interpretFinal i2 b2 = some bs := hint
      rcases i2 with _ | ⟨i, is2⟩
      · simp only [interpretFinal, List.isEmpty_nil, if_true, Option.some.injEq] at hint
        subst hint; exact hfetch
      · rcases List.eq_nil_or_concat' b2 with rfl | ⟨B, b, rfl⟩
        · exact absurd rfl hb2
        rw [final_append _ _ _ (by simp)] at hint
        obtain rfl : B ++ [{ b with query_list := b.query_list ++ [mkQuery (i :: is2)] }] = bs := by
          simpa using hint
        intro x hx
        rcases List.mem_append.mp hx with h2 | h2
        · exact hfetch x (by simp [h2])
        · simp only [List.mem_singleton] at h2
          subst h2
          simpa using hfetch b (by simp)
  · intro cmds bs hint hnov
    rw [interpret] at hint
    cases hloop : interpretLoop cmds [] [] with
    | none => rw [hloop] at hint; exact absurd hint (by simp)
    | some p =>
      obtain ⟨i2, b2⟩ := p
      rw [hloop] at hint
      replace hint : interpretFinal i2 b2 = some bs := hint
      obtain ⟨rfl, hi2nov⟩ :=
        interpretLoop_novisit cmds [] i2 b2 hloop (fun c hc => hnov c hc) (by simp)
      rcases i2 with _ | ⟨i, is2⟩
      · simp only [interpretFinal, List.isEmpty_nil, if_true, Option.some.injEq] at hint
        subst hint; intro b hb; exact absurd hb (by simp)
      · have hfind : (i :: is2).find? (fun c => c.action == CAction.visit) = none := by
          rw [List.find?_eq_none]
          intro x hx
          simpa using hi2nov x hx
        simp only [interpretFinal, List.isEmpty_cons, if_false, List.isEmpty_nil, if_true,
          Option.some.injEq, Bool.false_eq_true] at hint
        rw [hfind] at hint
        subst hint
        intro b hb
        simp only [List.mem_singleton] at hb
        subst hb
        rfl

/-- Witness for C9's amended theorem: a one-VISIT script yields one block
with a present fetch command; a one-SCRAPE script yields one block with
`fetch_command = None`. -/
theorem c9_block_fetch_witness :
    (∀ b ∈ ([⟨some ⟨CAction.visit, 0⟩, [⟨some ⟨CAction.visit, 0⟩, [], none, none⟩]⟩] :
        List GoatspeakBlock), b.fetch_command.isSome = true) ∧
    (∀ b ∈ ([⟨none, [⟨none, [⟨CAction.scrape, 0⟩], none, none⟩]⟩] :
        List GoatspeakBlock), b.fetch_command = none) := by
  constructor
  · exact c9_block_fetch.1 [⟨CAction.visit, 0⟩] _ (by decide)
      ⟨⟨CAction.visit, 0⟩, by simp, rfl⟩
  · exact c9_block_fetch.2 [⟨CAction.scrape, 0⟩] _ (by decide) (by decide)

/-- C2: `Goat.feast` on a command list `pre ++ select :: post` where `pre`
contains no select: the scrape commands of `pre` contribute their results
directly (in order), then the first select's candidates are obtained by
executing it at the root, the remaining commands `post` are re-run
recursively with each candidate as the new root (`feastList` concatenates
those runs in candidate order), and execution returns that — nothing
after the select is evaluated at the original root. -/
theorem c2_select_rebase (root : HNode) (pre post : List GrazeCmd) (c : GrazeCmd)
    (hpre : ∀ d ∈ pre, isSelect d = false) (hc : isSelect c = true) :
    feast root (pre ++ c :: post) =
      match scrapeResults root pre with
      | none => none
      | some rs =>
        match c.execute root with
        | none => none
        | some cands =>
          match feastList cands post with
          | none => none
          | some more => some (rs ++ more) := by
  induction pre with
  | nil =>
    simp only [List.nil_append, feast, hc, if_true, scrapeResults]
    cases hce : c.execute root with
    | none => rfl
    | some cands =>
      dsimp only
      cases hfl : feastList cands post with
      | none => rfl
      | some more => simp
  | cons d pre' ih =>
    have hd : isSelect d = false := hpre d (by simp)
    simp only [List.cons_append, feast, hd, Bool.false_eq_true, if_false, scrapeResults]
    cases hde : d.execute root with
    | none => rfl
    | some rs1 =>
      dsimp only
      rw [ih (fun e he => hpre e (by simp [he]))]
      cases hsr : scrapeResults root pre' with
      | none => rfl
      | some rs2 =>
        dsimp only
        cases hce : c.execute root with
        | none => rfl
        | some cands =>
          dsimp only
          cases hfl : feastList cands post with
          | none => rfl
          | some more => simp

/-- Witness for C2 at a concrete run: `SCRAPE li` then `SELECT div` then
`SCRAPE li` on the example tree — the pre-select scrape collects all three
`li` nodes, the select rebases onto the single `div`, and the trailing
scrape then only sees the `li` inside that `div`. -/
theorem c2_select_rebase_witness :
    (∀ d ∈ [(⟨"scrape", 0, "li", []⟩ : GrazeCmd)], isSelect d = false) ∧
    isSelect (⟨"select", 0, "div", []⟩ : GrazeCmd) = true ∧
    feast exampleTree
        ([⟨"scrape", 0, "li", []⟩] ++ (⟨"select", 0, "div", []⟩ : GrazeCmd) ::
          [⟨"scrape", 0, "li", []⟩]) =
      match scrapeResults exampleTree [⟨"scrape", 0, "li", []⟩] with
      | none => none
      | some rs =>
        match GrazeCmd.execute ⟨"select", 0, "div", []⟩ exampleTree with
        | none => none
        | some cands =>
          match feastList cands [⟨"scrape", 0, "li", []⟩] with
          | none => none
          | some more => some (rs ++ more) := by
  refine ⟨by decide, by decide, ?_⟩
  exact c2_select_rebase exampleTree [⟨"scrape", 0, "li", []⟩] [⟨"scrape", 0, "li", []⟩]
    ⟨"select", 0, "div", []⟩ (by decide) (by decide)

theorem condWF_evaluate_isSome (c : Condition) (h : condWF c) (node root : HNode) :
    (c.evaluate node (some root)).isSome = true := by
  cases c with
  | ifCond key value neg qt like =>
    obtain ⟨hqt, hkey⟩ := h
    rcases qt with _ | q
    · simp at hqt
    simp only [Condition.evaluate, Condition.matches, ifMatches]
    rw [if_neg (by simpa using hkey)]
    rcases like with _ | _ <;>
      rcases hat : firstCharIsAt key with _ | _ <;>
      simp [hat]
  | inCond target value neg qt =>
    simp only [Condition.evaluate, Condition.matches, inMatches]
    by_cases ht : (target == "POSITION") = true
    · obtain ⟨t, rfl, htne⟩ := h (by simpa using ht)
      rw [if_pos ht]
      have : (t == "") = false := by simpa using htne
      simp [this]
    · rw [if_neg ht]
      simp

theorem allConds_isSome (conds : List Condition) (node root : HNode)
    (h : ∀ c ∈ conds, condWF c) : (allConds conds node root).isSome = true := by
  induction conds with
  | nil => rfl
  | cons c cs ih =>
    rw [allConds]
    have hc := condWF_evaluate_isSome c (h c (by simp)) node root
    rcases he : c.evaluate node (some root) with _ | b
    · rw [he] at hc; simp at hc
    · cases b
      · simp
      · exact ih (fun d hd => h d (by simp [hd]))

theorem grazeEval_isSome (cmd : GrazeCmd) (hwf : ∀ c ∈ cmd.conditions, condWF c)
    (node root : HNode) : (grazeEval cmd node root).isSome = true := by
  rw [grazeEval]
  split
  · simp
  · exact allConds_isSome cmd.conditions node root hwf

theorem executeGo_zero (cmd : GrazeCmd) (root : HNode) (hcount : cmd.count = 0)
    (l : List HNode) (hl : ∀ n ∈ l, (grazeEval cmd n root).isSome = true) :
    ∀ acc, executeGo cmd root l acc =
      some (acc ++ l.filter (fun n => (grazeEval cmd n root).getD false)) := by
  induction l with
  | nil => intro acc; simp [executeGo]
  | cons n rest ih =>
    intro acc
    have hn := hl n (by simp)
    rcases he : grazeEval cmd n root with _ | b
    · rw [he] at hn; simp at hn
    · rw [executeGo, he]
      rcases b with _ | _
      · rw [List.filter_cons_of_neg (by simp [he])]
        exact ih (fun m hm => hl m (by simp [hm])) acc
      · rw [hcount]
        rw [if_neg (by simp)]
        rw [List.filter_cons_of_pos (by simp [he])]
        rw [ih (fun m hm => hl m (by simp [hm])) (acc ++ [n])]
        simp

theorem executeGo_pos (cmd : GrazeCmd) (root : HNode) (hcount : 0 < cmd.count)
    (l : List HNode) (hl : ∀ n ∈ l, (grazeEval cmd n root).isSome = true) :
    ∀ acc, acc.length < cmd.count →
      executeGo cmd root l acc =
        some (acc ++ (l.filter (fun n => (grazeEval cmd n root).getD false)).take
          (cmd.count - acc.length)) := by
  induction l with
  | nil => intro acc _; simp [executeGo]
  | cons n rest ih =>
    intro acc hacc
    have hn := hl n (by simp)
    rcases he : grazeEval cmd n root with _ | b
    · rw [he] at hn; simp at hn
    · rw [executeGo, he]
      rcases b with _ | _
      · rw [List.filter_cons_of_neg (by simp [he])]
        exact ih (fun m hm => hl m (by simp [hm])) acc hacc
      · rw [List.filter_cons_of_pos (by simp [he])]
        by_cases hstop : cmd.count ≤ (acc ++ [n]).length
        · have h1 : (cmd.count > 0 && decide (cmd.count ≤ (acc ++ [n]).length)) = true := by
            simp only [List.length_append, List.length_singleton] at hstop
            simp [hcount, hstop]
          rw [if_pos h1]
          have h2 : cmd.count - acc.length = 1 := by
            simp only [List.length_append, List.length_singleton] at hstop
            omega
          rw [h2, List.take_succ_cons, List.take_zero]
        · have hstop' : ¬cmd.count ≤ acc.length + 1 := by
            intro hcon
            exact hstop (by simpa using hcon)
          have h1 : (cmd.count > 0 && decide (cmd.count ≤ (acc ++ [n]).length)) = false := by
            simp only [Bool.and_eq_false_iff, decide_eq_false_iff_not]
            right
            simpa using hstop'
          rw [if_neg (by rw [h1]; simp)]
          have hacc2 : (acc ++ [n]).length < cmd.count := by
            simp only [List.length_append, List.length_singleton]
            simp only [List.length_append, List.length_singleton] at hstop
            omega
          rw [ih (fun m hm => hl m (by simp [hm])) (acc ++ [n]) hacc2]
          have h3 : cmd.count - acc.length = (cmd.count - (acc ++ [n]).length) + 1 := by
            simp only [List.length_append, List.length_singleton]
            omega
          rw [h3, List.take_succ_cons]
          simp

/-- C3: `GrazeCommand.execute` with count 0 returns every node of the
target tag satisfying all attached conditions, in preorder (document)
order; with count n > 0 it returns the first n of them — exactly
min(n, K) nodes where K is the total number of matches.  (The conditions
are required to be well-formed so that evaluation cannot raise.) -/
theorem c3_scrape_count (cmd : GrazeCmd) (root : HNode)
    (hwf : ∀ c ∈ cmd.conditions, condWF c) :
    cmd.execute root =
      some (if cmd.count = 0 then grazeMatches cmd root
            else (grazeMatches cmd root).take cmd.count) ∧
    (0 < cmd.count →
      ((grazeMatches cmd root).take cmd.count).length =
        min cmd.count (grazeMatches cmd root).length) := by
  constructor
  · rw [GrazeCmd.execute]
    have hl : ∀ n ∈ preorder root, (grazeEval cmd n root).isSome = true :=
      fun n _ => grazeEval_isSome cmd hwf n root
    by_cases hc : cmd.count = 0
    · rw [if_pos hc, executeGo_zero cmd root hc (preorder root) hl []]
      rfl
    · rw [if_neg hc,
        executeGo_pos cmd root (Nat.pos_of_ne_zero hc) (preorder root) hl [] (by
          simpa using Nat.pos_of_ne_zero hc)]
      simp [grazeMatches]
  · intro _
    exact List.length_take ..

/-- Witness for C3: `SCRAPE 2 li` on the example tree (three `li` nodes at
preorder ranks 1, 2, 3) returns exactly the first two in document order. -/
theorem c3_scrape_count_witness :
    (∀ c ∈ (⟨"scrape", 2, "li", []⟩ : GrazeCmd).conditions, condWF c) ∧
    (GrazeCmd.execute ⟨"scrape", 2, "li", []⟩ exampleTree =
        some (if (⟨"scrape", 2, "li", []⟩ : GrazeCmd).count = 0 then
                grazeMatches ⟨"scrape", 2, "li", []⟩ exampleTree
              else (grazeMatches ⟨"scrape", 2, "li", []⟩ exampleTree).take 2) ∧
      (0 < (⟨"scrape", 2, "li", []⟩ : GrazeCmd).count →
        ((grazeMatches ⟨"scrape", 2, "li", []⟩ exampleTree).take 2).length =
          min 2 (grazeMatches ⟨"scrape", 2, "li", []⟩ exampleTree).length)) ∧
    GrazeCmd.execute ⟨"scrape", 2, "li", []⟩ exampleTree =
      some [mkLeaf 1 "li" "x", mkLeaf 3 "li" "y"] := by
  refine ⟨fun c hc => absurd hc (by simp), ?_, by rfl⟩
  exact c3_scrape_count ⟨"scrape", 2, "li", []⟩ exampleTree (fun c hc => absurd hc (by simp))

theorem posScan_char (qt : String) (nid : Nat) (k : Nat) :
    ∀ (l : List HNode) (pos : Nat),
      ((l.filter (fun n => n.data.tag_type == qt)).map (fun n => n.data.nid)).Nodup →
      posScan qt nid (some k) l pos =
        decide (pos ≤ k ∧
          (((l.filter (fun n => n.data.tag_type == qt)).get? (k - pos)).map
              (fun n => n.data.nid) = some nid)) := by
  intro l
  induction l with
  | nil => intro pos _; simp [posScan]
  | cons n rest ih =>
    intro pos hnd
    by_cases htag : (n.data.tag_type == qt) = true
    · have hfc : List.filter (fun m => m.data.tag_type == qt) (n :: rest) =
          n :: List.filter (fun m => m.data.tag_type == qt) rest := by
        simp [List.filter_cons, htag]
      rw [hfc] at hnd ⊢
      simp only [List.map_cons, List.nodup_cons] at hnd
      obtain ⟨hnotin, hnd'⟩ := hnd
      rw [posScan, if_pos htag]
      by_cases hid : (n.data.nid == nid) = true
      · rw [if_pos hid]
        have hideq : n.data.nid = nid := by simpa using hid
        by_cases hk : k = pos
        · subst hk
          simp [hideq]
        · have : (some k == some pos) = false := by simp [hk]
          rw [this]
          symm
          rw [decide_eq_false_iff_not]
          rintro ⟨hle, hget⟩
          have hkp : 0 < k - pos := by omega
          obtain ⟨j, hj⟩ : ∃ j, k - pos = j + 1 := ⟨k - pos - 1, by omega⟩
          rw [hj, List.get?_cons_succ] at hget
          rcases hg : (rest.filter (fun n => n.data.tag_type == qt)).get? j with _ | m
          · rw [hg] at hget; simp at hget
          · rw [hg] at hget
            simp only [Option.map_some', Option.some.injEq] at hget
            exact hnotin (by
              rw [← hideq] at hget
              exact hget ▸ List.mem_map_of_mem _ (List.get?_mem hg))
      · rw [if_neg hid]
        rw [ih (pos + 1) hnd']
        have hidne : n.data.nid ≠ nid := by simpa using hid
        rcases Nat.lt_trichotomy k pos with hlt | heq | hgt
        · have h1 : ¬(pos + 1 ≤ k) := by omega
          have h2 : ¬(pos ≤ k) := by omega
          simp [h1, h2]
        · subst heq
          have h1 : ¬(k + 1 ≤ k) := by omega
          simp [h1, hidne]
        · have h1 : pos + 1 ≤ k := by omega
          have h2 : pos ≤ k := by omega
          have h3 : k - pos = (k - (pos + 1)) + 1 := by omega
          rw [h3, List.get?_cons_succ]
          simp [h1, h2]
    · have hfc : List.filter (fun m => m.data.tag_type == qt) (n :: rest) =
          List.filter (fun m => m.data.tag_type == qt) rest := by
        simp [List.filter_cons, htag]
      rw [hfc] at hnd ⊢
      rw [posScan, if_neg htag]
      exact ih pos hnd

/-- C4: for a tree rooted at `r` with pairwise distinct node ids, the
ordinal condition `IN POSITION = k` with owning tag `t` (not negated)
evaluates on a node to `true` exactly when that node is the k-th node
(1-indexed) whose tag equals `t` in the preorder traversal of `r`, and to
`false` on every other node; evaluation never raises since the owning tag
is present and non-empty and a root is supplied. -/
theorem c4_position_condition (r node : HNode) (t : String) (k : Nat)
    (hk : 1 ≤ k) (ht : t ≠ "")
    (hnd : ((preorder r).map (fun n => n.data.nid)).Nodup) :
    (Condition.inCond "POSITION" (some k) false (some t)).evaluate node (some r) =
      some (decide
        ((((preorder r).filter (fun n => n.data.tag_type == t)).get? (k - 1)).map
            (fun n => n.data.nid) = some node.data.nid)) := by
  have hnd' : (((preorder r).filter (fun n => n.data.tag_type == t)).map
      (fun n => n.data.nid)).Nodup := by
    refine List.Nodup.sublist ?_ hnd
    exact List.Sublist.map _ (List.filter_sublist _)
  simp only [Condition.evaluate, Condition.matches, inMatches]
  rw [if_pos (by rfl)]
  have htb : (t == "") = false := by simpa using ht
  rw [htb]
  simp only [Bool.false_eq_true, if_false, Condition.negated, Option.map_some',
    Bool.not_false, if_false]
  rw [posScan_char t node.data.nid k (preorder r) 1 hnd']
  congr 1
  rw [decide_eq_decide]
  constructor
  · rintro ⟨-, h⟩; exact h
  · intro h; exact ⟨hk, h⟩

/-- Witness for C4: in the example tree the `li` with id 3 is the 2nd `li`
in preorder, so `IN POSITION = 2` (owning tag `li`) evaluates to `true` on
it; on the `li` with id 4 (the 3rd) it evaluates to `false`. -/
theorem c4_position_condition_witness :
    (1 ≤ 2 ∧ "li" ≠ "" ∧
      ((preorder exampleTree).map (fun n => n.data.nid)).Nodup) ∧
    (Condition.inCond "POSITION" (some 2) false (some "li")).evaluate
        (mkLeaf 3 "li" "y") (some exampleTree) =
      some (decide
        ((((preorder exampleTree).filter (fun n => n.data.tag_type == "li")).get? (2 - 1)).map
            (fun n => n.data.nid) = some (mkLeaf 3 "li" "y").data.nid)) ∧
    (Condition.inCond "POSITION" (some 2) false (some "li")).evaluate
        (mkLeaf 3 "li" "y") (some exampleTree) = some true ∧
    (Condition.inCond "POSITION" (some 2) false (some "li")).evaluate
        (mkLeaf 4 "li" "z") (some exampleTree) = some false := by
  refine ⟨⟨by omega, by decide, by decide⟩, ?_, by rfl, by rfl⟩
  exact c4_position_condition exampleTree (mkLeaf 3 "li" "y") "li" 2 (by omega) (by decide)
    (by decide)

theorem toDictWith_table (d : NodeData) (cs : List HNode)
    (efields : Option (List String)) (eflags : EFlags) (b : Bool)
    (hflag : eflags.table = true) :
    toDictWith (.mk d cs) efields eflags b =
      if d.tag_type != "table" then Except.error ()
      else Except.ok (rowsToJ (handleTableExtract (.mk d cs))) := by
  rw [toDictWith, if_pos hflag]

theorem toDict_table_ok (n : HNode) (b : Bool)
    (hflag : n.data.extract_flags.table = true) (htag : n.data.tag_type = "table") :
    toDict n b = Except.ok (rowsToJ (handleTableExtract n)) := by
  cases n with
  | mk d cs =>
    simp only [toDict, HNode.data] at hflag htag ⊢
    rw [toDictWith_table d cs _ _ b hflag]
    simp [htag]

theorem toDict_table_error (n : HNode) (b : Bool)
    (hflag : n.data.extract_flags.table = true) (htag : n.data.tag_type ≠ "table") :
    toDict n b = Except.error () := by
  cases n with
  | mk d cs =>
    simp only [toDict, HNode.data] at hflag htag ⊢
    rw [toDictWith_table d cs _ _ b hflag]
    simp [htag]

/-- C6: for a node whose table extract flag is set, the dictionary
projection `to_dict` raises the fatal extraction error exactly when the
node's tag is not `"table"`; the error is raised before any row object is
produced (the projection returns no value at all), and on an actual
`table` node the projection returns the table rows without error. -/
theorem c6_table_flag_iff_error (n : HNode) (b : Bool)
    (htable : n.data.extract_flags.table = true) :
    (toDict n b = Except.error () ↔ n.data.tag_type ≠ "table") ∧
    (n.data.tag_type = "table" →
      toDict n b = Except.ok (rowsToJ (handleTableExtract n))) := by
  cases n with
  | mk d cs =>
    simp only [toDict, HNode.data] at htable ⊢
    rw [toDictWith_table d cs _ _ b htable]
    by_cases htag : d.tag_type = "table"
    · have hb : (d.tag_type != "table") = false := by simp [htag]
      rw [hb]
      refine ⟨⟨fun he => ?_, fun hne => absurd htag hne⟩, fun _ => by simp⟩
      simp at he
    · have hb : (d.tag_type != "table") = true := by simp [htag]
      rw [hb]
      exact ⟨⟨fun _ => htag, fun _ => by simp⟩, fun he => absurd he htag⟩

/-- Witness for C6: the `div` node with the table flag set is rejected
with the extraction error; the example table node is projected without
error. -/
theorem c6_table_flag_iff_error_witness :
    exampleDivTableFlag.data.extract_flags.table = true ∧
    (toDict exampleDivTableFlag false = Except.error () ↔
      exampleDivTableFlag.data.tag_type ≠ "table") ∧
    toDict exampleDivTableFlag false = Except.error () ∧
    toDict exampleTable false = Except.ok (rowsToJ (handleTableExtract exampleTable)) := by
  refine ⟨rfl, (c6_table_flag_iff_error exampleDivTableFlag false rfl).1, ?_, ?_⟩
  · exact toDict_table_error exampleDivTableFlag false rfl (by decide)
  · exact (c6_table_flag_iff_error exampleTable false rfl).2 rfl

theorem getDescendants_of_childless (tf : Option String) (c : HNode)
    (h : c.children = []) : getDescendants tf c = [] := by
  cases c with
  | mk d cs =>
    simp only [HNode.children] at h
    subst h
    rfl

theorem gdl_flat (tf : Option String) (cs : List HNode)
    (h : ∀ c ∈ cs, c.children = []) :
    getDescendantsList tf cs = cs.filter (tagOk tf) := by
  induction cs with
  | nil => rfl
  | cons c cs' ih =>
    rw [getDescendantsList, getDescendants_of_childless tf c (h c (by simp)),
      ih (fun x hx => h x (by simp [hx])), List.filter_cons]
    by_cases hc : tagOk tf c = true <;> simp [hc]

theorem gdl_trows (trs : List HNode)
    (h : ∀ tr ∈ trs, tr.data.tag_type = "tr" ∧
      ∀ c ∈ tr.children, (c.data.tag_type = "th" ∨ c.data.tag_type = "td") ∧
        c.children = []) :
    getDescendantsList (some "tr") trs = trs := by
  induction trs with
  | nil => rfl
  | cons tr trs' ih =>
    obtain ⟨htr, hcells⟩ := h tr (by simp)
    have h1 : tagOk (some "tr") tr = true := by simp [tagOk, htr]
    have h2 : getDescendants (some "tr") tr = [] := by
      cases tr with
      | mk d cs =>
        simp only [HNode.children] at hcells
        rw [getDescendants, gdl_flat _ _ (fun c hc => (hcells c hc).2)]
        rw [List.filter_eq_nil_iff]
        intro c hc
        rcases (hcells c hc).1 with hth | hth <;> simp [tagOk, hth]
    rw [getDescendantsList, h1, h2, ih (fun x hx => h x (by simp [hx]))]
    simp

theorem hoistCell_childless (m : BodyMap) (c : HNode) (h : c.children = []) :
    hoistCell m c = m := by
  rw [hoistCell, getDescendants_of_childless none c h]
  rfl

theorem extractHeaders_childless (cells : List HNode)
    (h : ∀ c ∈ cells, c.children = []) :
    extractHeaders [] cells = ([], cells.map (fun c => pyStrip c.data.body)) := by
  induction cells with
  | nil => rfl
  | cons c cs ih =>
    rw [extractHeaders, hoistCell_childless [] c (h c (by simp)),
      ih (fun x hx => h x (by simp [hx]))]
    rfl

theorem rowFromHeaders_childless (cells : List HNode)
    (h : ∀ c ∈ cells, c.children = []) :
    ∀ (hs : List String) (i : Nat) (row : Row),
      rowFromHeaders cells [] hs i row = ([], specRow cells hs i row) := by
  intro hs
  induction hs with
  | nil => intro i row; rfl
  | cons hd hs' ih =>
    intro i row
    rcases hg : cells.get? i with _ | cell
    · rw [rowFromHeaders, specRow, hg]
      exact ih (i + 1) (upsertRow row hd "")
    · rw [rowFromHeaders, specRow, hg]
      try dsimp only
      rw [hoistCell_childless [] cell (h cell (List.get?_mem hg))]
      exact ih (i + 1) (upsertRow row hd (pyStrip (bodyOf [] cell)))

theorem tableRowsLoop_flat (headers : List String) (trs : List HNode)
    (h : ∀ tr ∈ trs, ∀ c ∈ tr.children,
      (c.data.tag_type = "th" ∨ c.data.tag_type = "td") ∧ c.children = []) :
    tableRowsLoop headers [] trs =
      trs.map (fun tr => specRow (specCells tr) headers 0 []) := by
  induction trs with
  | nil => rfl
  | cons tr trs' ih =>
    have hcells : ∀ c ∈ tr.children, c.children = [] :=
      fun c hc => (h tr (by simp) c hc).2
    have hc1 : getDescendants (some "td") tr ++ getDescendants (some "th") tr =
        specCells tr := by
      cases tr with
      | mk d cs =>
        simp only [HNode.children] at hcells
        rw [getDescendants, getDescendants, gdl_flat _ _ hcells, gdl_flat _ _ hcells]
        rfl
    have hcell2 : ∀ c ∈ specCells tr, c.children = [] := by
      intro c hc
      rw [specCells] at hc
      rcases List.mem_append.mp hc with h2 | h2 <;>
        exact hcells c (List.mem_of_mem_filter h2)
    rw [tableRowsLoop]
    try dsimp only
    rw [hc1, rowFromHeaders_childless (specCells tr) hcell2 headers 0 [],
      ih (fun x hx => h x (by simp [hx]))]
    try rfl

/-- C5: projecting a flat table node (table flag set, children are the
`tr` rows, each row's children its childless `th`/`td` cells) whose first
`tr` is the header row yields one row object per subsequent `tr`, mapping
each header cell's stripped text to the positionally corresponding
cell's stripped text (`td` cells before `th` cells within the row), with
the empty string for every column past the row's last cell. -/
theorem c5_table_projection (n : HNode) (b : Bool) (t0 : HNode) (rest : List HNode)
    (hflat : flatTable n) (hch : n.children = t0 :: rest) :
    toDict n b = Except.ok (rowsToJ
      (rest.map (fun tr => specRow (specCells tr) (specHeaders t0) 0 []))) := by
  obtain ⟨hflag, htag, hrows⟩ := hflat
  cases n with
  | mk d cs =>
    simp only [HNode.data] at hflag htag
    simp only [HNode.children] at hch hrows
    subst hch
    simp only [toDict, HNode.data]
    rw [toDictWith_table d _ _ _ b hflag]
    have hb : (d.tag_type != "table") = false := by simp [htag]
    rw [hb]
    simp only [Bool.false_eq_true, if_false, Except.ok.injEq]
    rw [handleTableExtract]
    rw [show getDescendants (some "tr") (HNode.mk d (t0 :: rest)) =
        getDescendantsList (some "tr") (t0 :: rest) from rfl]
    rw [gdl_trows (t0 :: rest) hrows]
    obtain ⟨-, hcellst0⟩ := hrows t0 (by simp)
    have hhc : getDescendants (some "th") t0 ++ getDescendants (some "td") t0 =
        t0.children.filter (fun c => c.data.tag_type == "th") ++
        t0.children.filter (fun c => c.data.tag_type == "td") := by
      cases t0 with
      | mk d0 cs0 =>
        simp only [HNode.children] at hcellst0 ⊢
        rw [getDescendants, getDescendants, gdl_flat _ _ (fun c hc => (hcellst0 c hc).2),
          gdl_flat _ _ (fun c hc => (hcellst0 c hc).2)]
        rfl
    have hhcless : ∀ c ∈ t0.children.filter (fun c => c.data.tag_type == "th") ++
        t0.children.filter (fun c => c.data.tag_type == "td"), c.children = [] := by
      intro c hc
      rcases List.mem_append.mp hc with h2 | h2 <;>
        exact (hcellst0 c (List.mem_of_mem_filter h2)).2
    try dsimp only
    rw [hhc, extractHeaders_childless _ hhcless]
    try dsimp only
    rw [tableRowsLoop_flat _ rest (fun tr htr => fun c hc => (hrows tr (by simp [htr])).2 c hc)]
    try rw [specHeaders]
    try rfl

theorem exampleTable_flat : flatTable exampleTable := by
  refine ⟨rfl, rfl, ?_⟩
  intro tr htr
  simp only [exampleTable, mkInner, mkLeaf, HNode.children, List.mem_cons,
    List.not_mem_nil, or_false] at htr
  rcases htr with rfl | rfl
  · refine ⟨rfl, ?_⟩
    intro c hc
    simp only [HNode.children, List.mem_cons, List.not_mem_nil, or_false] at hc
    rcases hc with rfl | rfl
    · exact ⟨Or.inl rfl, rfl⟩
    · exact ⟨Or.inl rfl, rfl⟩
  · refine ⟨rfl, ?_⟩
    intro c hc
    simp only [HNode.children, List.mem_cons, List.not_mem_nil, or_false] at hc
    rcases hc with rfl | rfl
    · exact ⟨Or.inr rfl, rfl⟩
    · exact ⟨Or.inr rfl, rfl⟩

/-- Witness for C5: projecting the table of
`<table><tr><th>A</th><th>B</th></tr><tr><td>1</td><td>2</td></tr></table>`
yields `[{"A": "1", "B": "2"}]`, and the variant whose data row has only
one cell yields `[{"A": "1", "B": ""}]`. -/
theorem c5_table_projection_witness :
    flatTable exampleTable ∧
    toDict exampleTable false = Except.ok (rowsToJ
      ([mkInner 4 "tr" ⟨false, false, false⟩ [mkLeaf 5 "td" "1", mkLeaf 6 "td" "2"]].map
        (fun tr => specRow (specCells tr)
          (specHeaders (mkInner 1 "tr" ⟨false, false, false⟩
            [mkLeaf 2 "th" "A", mkLeaf 3 "th" "B"])) 0 []))) ∧
    toDict exampleTable false = Except.ok (rowsToJ [[("A", "1"), ("B", "2")]]) ∧
    toDict exampleTableShort false = Except.ok (rowsToJ [[("A", "1"), ("B", "")]]) := by
  refine ⟨exampleTable_flat, ?_, ?_, ?_⟩
  · exact c5_table_projection exampleTable false _ _ exampleTable_flat rfl
  · rw [toDict_table_ok exampleTable false rfl rfl]
    rfl
  · rw [toDict_table_ok exampleTableShort false rfl rfl]
    rfl

theorem contains_ext (s t : List Nat)
    (h : ∀ x, (s.contains x = true) ↔ (t.contains x = true)) :
    ∀ x, s.contains x = t.contains x := by
  intro x
  rcases hs : s.contains x with _ | _ <;> rcases ht : t.contains x with _ | _
  · rfl
  · exact absurd ((h x).mpr (by rw [ht])) (by rw [hs]; simp)
  · exact absurd ((h x).mp (by rw [hs])) (by rw [ht]; simp)
  · rfl

theorem keepFirst_congr (l : List HNode) :
    ∀ (s1 s2 : List Nat), (∀ x, s1.contains x = s2.contains x) →
      keepFirst s1 l = keepFirst s2 l := by
  induction l with
  | nil => intro s1 s2 _; rfl
  | cons n rest ih =>
    intro s1 s2 hs
    rw [keepFirst, keepFirst, hs n.data.nid]
    by_cases hc : s2.contains n.data.nid = true
    · rw [if_pos hc, if_pos hc]
      exact ih s1 s2 hs
    · rw [if_neg hc, if_neg hc]
      rw [ih (n.data.nid :: s1) (n.data.nid :: s2)
        (contains_ext _ _ (by
          intro x
          simp only [List.contains_cons]
          rw [hs x]))]

theorem pyDedup_foldl (l : List HNode) :
    ∀ acc, l.foldl
        (fun acc n => if acc.any (fun m => m.data.nid == n.data.nid) then acc else acc ++ [n])
        acc =
      acc ++ keepFirst (acc.map (fun m => m.data.nid)) l := by
  induction l with
  | nil => intro acc; simp [keepFirst]
  | cons n rest ih =>
    intro acc
    rw [List.foldl_cons, keepFirst]
    have hiff : (acc.any (fun m => m.data.nid == n.data.nid)) = true ↔
        ((acc.map (fun m => m.data.nid)).contains n.data.nid) = true := by
      constructor
      · intro h1
        obtain ⟨m, hm, hmid⟩ := List.any_eq_true.mp h1
        exact List.elem_iff.mpr (List.mem_map.mpr ⟨m, hm, by simpa using hmid⟩)
      · intro h2
        obtain ⟨m, hm, hmid⟩ := List.mem_map.mp (List.elem_iff.mp h2)
        exact List.any_eq_true.mpr ⟨m, hm, by simpa using hmid⟩
    have hany : (acc.any (fun m => m.data.nid == n.data.nid)) =
        (acc.map (fun m => m.data.nid)).contains n.data.nid := by
      rcases h1 : acc.any (fun m => m.data.nid == n.data.nid) with _ | _ <;>
        rcases h2 : (acc.map (fun m => m.data.nid)).contains n.data.nid with _ | _
      · rw [h2]
      · exact absurd (hiff.mpr h2) (by rw [h1]; simp)
      · exact absurd (hiff.mp h1) (by rw [h2]; simp)
      · rw [h2]
    by_cases hc : (acc.map (fun m => m.data.nid)).contains n.data.nid = true
    · rw [if_pos (by rw [hany]; exact hc), if_pos hc]
      exact ih acc
    · rw [if_neg (by rw [hany]; exact hc), if_neg hc]
      rw [ih (acc ++ [n])]
      have : (acc ++ [n]).map (fun m => m.data.nid) =
          acc.map (fun m => m.data.nid) ++ [n.data.nid] := by simp
      rw [this, keepFirst_congr rest _ (n.data.nid :: acc.map (fun m => m.data.nid))
        (contains_ext _ _ (by
          intro x
          have hmm : (x ∈ List.map (fun m => m.data.nid) acc ++ [n.data.nid]) ↔
              (x ∈ n.data.nid :: List.map (fun m => m.data.nid) acc) := by
            simp [or_comm]
          constructor
          · intro h; exact List.elem_iff.mpr (hmm.mp (List.elem_iff.mp h))
          · intro h; exact List.elem_iff.mpr (hmm.mpr (List.elem_iff.mp h))))]
      simp

theorem pyDedup_eq_keepFirst (l : List HNode) : pyDedup l = keepFirst [] l := by
  rw [pyDedup, pyDedup_foldl l []]
  rfl

theorem keepFirst_sublist (l : List HNode) :
    ∀ seen, (keepFirst seen l).Sublist l := by
  induction l with
  | nil => intro _; exact List.Sublist.refl []
  | cons n rest ih =>
    intro seen
    rw [keepFirst]
    by_cases hc : seen.contains n.data.nid = true
    · rw [if_pos hc]
      exact (ih seen).cons n
    · rw [if_neg hc]
      exact (ih (n.data.nid :: seen)).cons₂ n

theorem keepFirst_nodup (l : List HNode) :
    ∀ seen, ((keepFirst seen l).map (fun m => m.data.nid)).Nodup ∧
      ∀ x ∈ keepFirst seen l, seen.contains x.data.nid = false := by
  induction l with
  | nil => intro _; exact ⟨List.nodup_nil, by simp [keepFirst]⟩
  | cons n rest ih =>
    intro seen
    rw [keepFirst]
    by_cases hc : seen.contains n.data.nid = true
    · rw [if_pos hc]
      exact ih seen
    · rw [if_neg hc]
      obtain ⟨hnd, hall⟩ := ih (n.data.nid :: seen)
      refine ⟨?_, ?_⟩
      · rw [List.map_cons, List.nodup_cons]
        refine ⟨?_, hnd⟩
        intro hmem
        obtain ⟨y, hy, hyid⟩ := List.mem_map.mp hmem
        have := hall y hy
        rw [hyid] at this
        simp at this
      · intro x hx
        rcases List.mem_cons.mp hx with rfl | hx'
        · simpa using hc
        · have := hall x hx'
          simp only [List.contains_cons, Bool.or_eq_false_iff] at this
          exact this.2

theorem keepFirst_covers (l : List HNode) :
    ∀ seen, ∀ x ∈ l, seen.contains x.data.nid = false →
      ∃ y ∈ keepFirst seen l, y.data.nid = x.data.nid := by
  induction l with
  | nil => intro _ x hx; exact absurd hx (by simp)
  | cons n rest ih =>
    intro seen x hx hxs
    rw [keepFirst]
    rcases List.mem_cons.mp hx with rfl | hx'
    · rw [if_neg (by rw [hxs]; simp)]
      exact ⟨x, by simp, rfl⟩
    · by_cases hc : seen.contains n.data.nid = true
      · rw [if_pos hc]
        exact ih seen x hx' hxs
      · rw [if_neg hc]
        by_cases heq : x.data.nid = n.data.nid
        · exact ⟨n, by simp, heq.symm⟩
        · obtain ⟨y, hy, hyid⟩ := ih (n.data.nid :: seen) x hx' (by
            simp only [List.contains_cons, Bool.or_eq_false_iff]
            constructor
            · simpa using heq
            · exact hxs)
          exact ⟨y, by simp [hy], hyid⟩

theorem keepFirst_find (l : List HNode) :
    ∀ seen (t : Nat), seen.contains t = false →
      (keepFirst seen l).find? (fun y => y.data.nid == t) =
        l.find? (fun y => y.data.nid == t) := by
  induction l with
  | nil => intro _ _ _; rfl
  | cons n rest ih =>
    intro seen t hts
    rw [keepFirst]
    by_cases hnt : (n.data.nid == t) = true
    · have hnid : n.data.nid = t := by simpa using hnt
      rw [if_neg (by rw [hnid, hts]; simp)]
      rw [List.find?_cons, List.find?_cons, hnt]
    · have hb : (n.data.nid == t) = false := by simpa using hnt
      by_cases hc : seen.contains n.data.nid = true
      · rw [if_pos hc, List.find?_cons, hb]
        try dsimp only
        exact ih seen t hts
      · rw [if_neg hc, List.find?_cons, List.find?_cons, hb]
        try dsimp only
        refine ih (n.data.nid :: seen) t ?_
        simp only [List.contains_cons, Bool.or_eq_false_iff]
        refine ⟨?_, hts⟩
        have hne : ¬n.data.nid = t := by simpa using hnt
        simpa using fun h => hne h.symm

/-- C10: `list(dict.fromkeys(results))` — the final de-duplication in
`Shepherd.herd` — de-duplicates by node identity (ids; `HTMLNode` has
default identity hashing and ids are unique per node) while preserving
first-insertion order: the output has pairwise distinct node ids, is a
subsequence of the input (order preserved), every input node's id is
still represented (so two structurally identical but distinct nodes are
both kept), and for each id the survivor is exactly the first occurrence
in the input, at the position of that first occurrence. -/
theorem c10_dedup_identity (results : List HNode) :
    ((pyDedup results).map (fun n => n.data.nid)).Nodup ∧
    (pyDedup results).Sublist results ∧
    (∀ x ∈ results, ∃ y ∈ pyDedup results, y.data.nid = x.data.nid) ∧
    (∀ t : Nat, (pyDedup results).find? (fun y => y.data.nid == t) =
      results.find? (fun y => y.data.nid == t)) := by
  rw [pyDedup_eq_keepFirst]
  exact ⟨(keepFirst_nodup results []).1, keepFirst_sublist results [],
    fun x hx => keepFirst_covers results [] x hx (by simp),
    fun t => keepFirst_find results [] t (by simp)⟩

/-- Witness for C10 at a concrete result list: `[a, b, a]` where `b` is
structurally identical to `a` apart from its id — the exact repeated node
`a` is kept once, at its first position, while the identical-but-distinct
`b` survives: the result is `[a, b]`. -/
theorem c10_dedup_identity_witness :
    pyDedup [mkLeaf 1 "li" "x", mkLeaf 2 "li" "x", mkLeaf 1 "li" "x"] =
      [mkLeaf 1 "li" "x", mkLeaf 2 "li" "x"] ∧
    (∀ x ∈ [mkLeaf 1 "li" "x", mkLeaf 2 "li" "x", mkLeaf 1 "li" "x"],
      ∃ y ∈ pyDedup [mkLeaf 1 "li" "x", mkLeaf 2 "li" "x", mkLeaf 1 "li" "x"],
        y.data.nid = x.data.nid) := by
  refine ⟨by rfl, ?_⟩
  exact (c10_dedup_identity [mkLeaf 1 "li" "x", mkLeaf 2 "li" "x", mkLeaf 1 "li" "x"]).2.2.1

end Scrapegoat
